import Mathlib

/-!
Verification development for the gift_of_time_edu_rag repository.

The repository implements a retrieval-augmented document pipeline:
ingestion (`netlify/functions/background/ingest.ts`: text cleaning,
word-window chunking, embedding with a content-hash cache and
retry/backoff, batch persistence, document status transitions) and a
query engine (`rag-query` handlers: input validation, ranked vector
search, citation-aware context packing, streamed vs. batch answers).

This file shallowly embeds those functions in Lean.  Strings are
modelled as `List Char`; JavaScript regex/string primitives used by the
code (`split(/\s+/)`, `slice`, `trim`, the two header-stripping
regexes, whitespace collapapse) are modelled character-by-character.
Loops whose termination is in question are modelled with explicit fuel
(`none` = the loop ran longer than the given bound).  External
collaborators (SHA-256, the OpenAI embedding/completions API, the SQL
store) are modelled as explicit parameters / state, following the
interface boundaries in the repository.
-/

/-! ## JavaScript character classes and string primitives -/

/-- JavaScript regex `\s` character class (whitespace), as used by
`split(/\s+/)`, `replace(/\s+/g, ' ')` and `String.prototype.trim`. -/
def isJsWs (c : Char) : Bool :=
  c == ' ' || c == '\t' || c == '\n' || c.val == 0x0B || c.val == 0x0C || c == '\r' ||
  c.val == 0x00A0 || c.val == 0x1680 || (0x2000 ≤ c.val && c.val ≤ 0x200A) ||
  c.val == 0x2028 || c.val == 0x2029 || c.val == 0x202F || c.val == 0x205F ||
  c.val == 0x3000 || c.val == 0xFEFF

/-- JavaScript regex `\d` character class. -/
def isJsDigit (c : Char) : Bool :=
  0x30 ≤ c.val && c.val ≤ 0x39

/-- `String.prototype.trim`: strip leading and trailing whitespace. -/
def jsTrim (l : List Char) : List Char :=
  ((l.dropWhile isJsWs).reverse.dropWhile isJsWs).reverse

/-- `text.split(/\s+/)`: split on maximal whitespace runs.  A separator
at the start (resp. end) of the string yields a leading (resp.
trailing) empty element, and the empty string splits to `[""]` — so the
result is always non-empty.  Fuel-indexed for structural recursion;
`splitWs` below supplies sufficient fuel. -/
def splitWsAux : Nat → List Char → List Char → List (List Char)
  | _, [], cur => [cur.reverse]
  | 0, _ :: _, cur => [cur.reverse]
  | fuel+1, c :: rest, cur =>
    if isJsWs c then cur.reverse :: splitWsAux fuel (rest.dropWhile isJsWs) []
    else splitWsAux fuel rest (c :: cur)

def splitWs (l : List Char) : List (List Char) :=
  splitWsAux l.length l []

/-- Normalize a JavaScript `slice` index to an absolute position. -/
def jsSliceIdx (len : Nat) (i : Int) : Nat :=
  if i < 0 then ((len : Int) + i).toNat else min i.toNat len

/-- `Array.prototype.slice(start, end)` with JavaScript's handling of
negative and out-of-range indices. -/
def jsSlice (l : List α) (s e : Int) : List α :=
  (l.take (jsSliceIdx l.length e)).drop (jsSliceIdx l.length s)

/-- `words.join(' ')`. -/
def joinSpace : List (List Char) → List Char
  | [] => []
  | [w] => w
  | w :: ws => w ++ ' ' :: joinSpace ws

/-! ## Tokenizer estimate (`estimateTokens`, ingest.ts) -/

/-- `estimateTokens`: `Math.ceil(text.split(/\s+/).length * 1.3)`. -/
def estimateTokens (text : List Char) : Int :=
  ⌈((splitWs text).length : ℚ) * 1.3⌉

/-! ## Chunker (`chunkText`, ingest.ts lines 31–55 and 294–318)

```js
function chunkText(text, maxTokens = 700, overlapTokens = 120) {
  const words = text.split(/\s+/);
  const chunks = [];
  const wordsPerToken = 1 / 1.3;
  const maxWords = Math.floor(maxTokens * wordsPerToken);
  const overlapWords = Math.floor(overlapTokens * wordsPerToken);
  let start = 0;
  while (start < words.length) {
    const end = Math.min(start + maxWords, words.length);
    const chunk = words.slice(start, end).join(' ');
    if (chunk.trim()) { chunks.push(chunk.trim()); }
    start = end - overlapWords;
    if (start >= words.length) break;
  }
  return chunks;
}
```
-/

/-- `wordsPerToken = 1 / 1.3`. -/
def wordsPerToken : ℚ := 1 / 1.3

/-- The chunk produced by one iteration of the `chunkText` loop:
`words.slice(start, end).join(' ')` trimmed, where
`end = Math.min(start + maxWords, words.length)`. -/
def chunkAt (words : List (List Char)) (start maxW : Int) : List Char :=
  jsTrim (joinSpace (jsSlice words start (min (start + maxW) (words.length : Int))))

/-- `if (chunk.trim()) chunks.push(chunk.trim())`. -/
def chunkPush (chunks : List (List Char)) (c : List Char) : List (List Char) :=
  if c = [] then chunks else chunks ++ [c]

/-- The `while (start < words.length)` loop of `chunkText`, fuel-indexed.
`none` means the loop was still running after `fuel` iterations.  Each
iteration computes `end`, pushes the trimmed chunk if non-empty, sets
`start = end - overlapWords`, and breaks when `start >= words.length`. -/
def chunkTextLoop (maxW ov : Int) (words : List (List Char)) :
    Nat → Int → List (List Char) → Option (List (List Char))
  | 0, _, _ => none
  | fuel+1, start, chunks =>
    if start < (words.length : Int) then
      if min (start + maxW) (words.length : Int) - ov ≥ (words.length : Int) then
        some (chunkPush chunks (chunkAt words start maxW))
      else
        chunkTextLoop maxW ov words fuel (min (start + maxW) (words.length : Int) - ov)
          (chunkPush chunks (chunkAt words start maxW))
    else some chunks

/-- `chunkText` with explicit `maxTokens`/`overlapTokens` arguments and
fuel bounding the number of loop iterations. -/
def chunkTextGen (maxTokens overlapTokens : ℚ) (fuel : Nat) (text : List Char) :
    Option (List (List Char)) :=
  chunkTextLoop ⌊maxTokens * wordsPerToken⌋ ⌊overlapTokens * wordsPerToken⌋
    (splitWs text) fuel 0 []

/-- `chunkText(text)` as invoked by the ingestion handler, i.e. with the
default `maxTokens = 700`, `overlapTokens = 120`. -/
def chunkTextFuel (fuel : Nat) (text : List Char) : Option (List (List Char)) :=
  chunkTextGen 700 120 fuel text

/-! ## Facts about the chunker -/

theorem splitWsAux_ne_nil (fuel : Nat) (l cur : List Char) :
    splitWsAux fuel l cur ≠ [] := by
  induction fuel generalizing l cur with
  | zero => cases l <;> simp [splitWsAux]
  | succ n ih =>
    cases l with
    | nil => simp [splitWsAux]
    | cons c rest =>
      simp only [splitWsAux]
      split
      · simp
      · exact ih rest (c :: cur)

theorem splitWs_length_pos (l : List Char) : 1 ≤ (splitWs l).length := by
  have h := splitWsAux_ne_nil l.length l []
  unfold splitWs
  cases hs : splitWsAux l.length l [] with
  | nil => exact absurd hs h
  | cons a t => simp [hs]

/-- With a positive overlap, the loop of `chunkText` never exits: after
each iteration the new start `min(start + maxWords, len) - overlapWords`
is at most `len - overlapWords < len`, so the `break` guard
`start >= words.length` never fires and the loop condition
`start < words.length` always holds again. -/
theorem chunkTextLoop_none (maxW ov : Int) (hov : 1 ≤ ov) (words : List (List Char)) :
    ∀ fuel start chunks, start < (words.length : Int) →
      chunkTextLoop maxW ov words fuel start chunks = none := by
  intro fuel
  induction fuel with
  | zero => intro start chunks _; rfl
  | succ n ih =>
    intro start chunks hstart
    have hmin : min (start + maxW) ((words.length : Nat) : Int) ≤ (words.length : Int) :=
      min_le_right _ _
    have hlt : min (start + maxW) ((words.length : Nat) : Int) - ov < (words.length : Int) := by
      omega
    simp only [chunkTextLoop, if_pos hstart]
    rw [if_neg (by omega)]
    exact ih _ _ hlt

/-! ## Text cleaning (`cleanText`, ingest.ts lines 19–28 and 282–291)

```js
function cleanText(text) {
  return text
    .replace(/^(Page \d+|\d+\s*$)/gm, '')
    .replace(/^(Chapter \d+|Section \d+)/gm, '')
    .replace(/\s+/g, ' ')
    .replace(/\n\s*\n/g, '\n')
    .trim();
}
```

The two header-stripping regexes are anchored at line starts (`^` with
the `m` flag); `\d+\s*$` matches a line-leading digit run followed by
whitespace up to a (multiline) end-of-line, with the usual greedy
backtracking of `\s*`.
-/

/-- Index of the last occurrence of `c` in `l`. -/
def lastIdxOf (c : Char) (l : List Char) : Option Nat :=
  match l.reverse.findIdx? (· == c) with
  | some i => some (l.length - 1 - i)
  | none => none

/-- Match of the `\d+\s*$` alternative of `/^(Page \d+|\d+\s*$)/m` at
the current (line-start) position: a digit run, then greedy `\s*`
backtracking so that the match ends at end-of-string or just before a
newline.  Returns `(nextPositionIsLineStart, remainder)` on a match. -/
def digitLineMatch (l : List Char) : Option (Bool × List Char) :=
  if l.takeWhile isJsDigit = [] then none
  else
    let w := (l.dropWhile isJsDigit).takeWhile isJsWs
    let rest := (l.dropWhile isJsDigit).dropWhile isJsWs
    if rest = [] then some (false, [])
    else
      match lastIdxOf '\n' w with
      | some k => some ((w.take k).getLast? == some '\n', w.drop k ++ rest)
      | none => none

/-- One match attempt of `/^(Page \d+|\d+\s*$)/m` at a line start. -/
def pageMatcher (l : List Char) : Option (Bool × List Char) :=
  if ("Page ".data).isPrefixOf l ∧ (l.drop 5).takeWhile isJsDigit ≠ [] then
    some (false, (l.drop 5).dropWhile isJsDigit)
  else digitLineMatch l

/-- One match attempt of `/^(Chapter \d+|Section \d+)/m` at a line start. -/
def chapterMatcher (l : List Char) : Option (Bool × List Char) :=
  if ("Chapter ".data).isPrefixOf l ∧ (l.drop 8).takeWhile isJsDigit ≠ [] then
    some (false, (l.drop 8).dropWhile isJsDigit)
  else if ("Section ".data).isPrefixOf l ∧ (l.drop 8).takeWhile isJsDigit ≠ [] then
    some (false, (l.drop 8).dropWhile isJsDigit)
  else none

/-- Global replace-with-empty of a line-anchored pattern (`^...` with
flags `gm`): at each line-start position attempt the match; on success
emit nothing and continue after the match, otherwise copy one character.
Fuel-indexed (each step consumes at least one character, so fuel equal
to the input length is always sufficient; an exhausted-fuel step copies
the rest unchanged). -/
def replaceLinesAux (matcher : List Char → Option (Bool × List Char)) :
    Nat → Bool → List Char → List Char
  | 0, _, l => l
  | _ + 1, _, [] => []
  | fuel+1, atStart, c :: rest =>
    if atStart then
      match matcher (c :: rest) with
      | some (b, remainder) => replaceLinesAux matcher fuel b remainder
      | none => c :: replaceLinesAux matcher fuel (c == '\n') rest
    else c :: replaceLinesAux matcher fuel (c == '\n') rest

/-- `.replace(/^(Page \d+|\d+\s*$)/gm, '')`. -/
def stripPageLines (l : List Char) : List Char :=
  replaceLinesAux pageMatcher l.length true l

/-- `.replace(/^(Chapter \d+|Section \d+)/gm, '')`. -/
def stripChapterLines (l : List Char) : List Char :=
  replaceLinesAux chapterMatcher l.length true l

/-- `.replace(/\s+/g, ' ')`: collapse every maximal whitespace run
(newlines included) to a single space.  Fuel-indexed as above. -/
def collapseWsAux : Nat → List Char → List Char
  | 0, l => l
  | _ + 1, [] => []
  | fuel+1, c :: rest =>
    if isJsWs c then ' ' :: collapseWsAux fuel (rest.dropWhile isJsWs)
    else c :: collapseWsAux fuel rest

def collapseWs (l : List Char) : List Char :=
  collapseWsAux l.length l

/-- One match attempt of `/\n\s*\n/`: a newline, then greedy `\s*`
backtracking so that the next character is again a newline (necessarily
the last newline of the following whitespace run). -/
def blankLinesMatcher (l : List Char) : Option (List Char) :=
  match l with
  | c :: rest =>
    if c = '\n' then
      match lastIdxOf '\n' (rest.takeWhile isJsWs) with
      | some k => some ((rest.takeWhile isJsWs).drop (k + 1) ++ rest.dropWhile isJsWs)
      | none => none
    else none
  | [] => none

/-- Global scan for `.replace(/\n\s*\n/g, '\n')`. -/
def collapseBlankAux : Nat → List Char → List Char
  | 0, l => l
  | _ + 1, [] => []
  | fuel+1, c :: rest =>
    match blankLinesMatcher (c :: rest) with
    | some remainder => '\n' :: collapseBlankAux fuel remainder
    | none => c :: collapseBlankAux fuel rest

/-- `.replace(/\n\s*\n/g, '\n')`. -/
def collapseBlankLines (l : List Char) : List Char :=
  collapseBlankAux l.length l

/-- `cleanText` on character lists. -/
def cleanTextL (l : List Char) : List Char :=
  jsTrim (collapseBlankLines (collapseWs (stripChapterLines (stripPageLines l))))

/-- `cleanText`, ingest.ts. -/
def cleanText (s : String) : String :=
  String.mk (cleanTextL s.data)

/-! ## Facts about `cleanText` -/

theorem head?_dropWhile_not (p : α → Bool) (l : List α) :
    ∀ b, (l.dropWhile p).head? = some b → p b = false := by
  induction l with
  | nil => intro b h; simp [List.dropWhile] at h
  | cons c rest ih =>
    intro b h
    rw [List.dropWhile_cons] at h
    by_cases hc : p c
    · rw [if_pos hc] at h; exact ih b h
    · rw [if_neg hc] at h
      simp only [List.head?_cons, Option.some.injEq] at h
      subst h
      exact Bool.eq_false_iff.mpr hc

theorem newline_not_mem_collapseWsAux (fuel : Nat) (l : List Char)
    (hf : l.length ≤ fuel) : '\n' ∉ collapseWsAux fuel l := by
  induction fuel generalizing l with
  | zero =>
    have : l = [] := List.length_eq_zero.mp (Nat.le_zero.mp hf)
    subst this; simp [collapseWsAux]
  | succ n ih =>
    cases l with
    | nil => simp [collapseWsAux]
    | cons c rest =>
      simp only [List.length_cons, Nat.succ_le_succ_iff] at hf
      simp only [collapseWsAux]
      split
      · intro hmem
        rcases List.mem_cons.mp hmem with h | h
        · exact absurd h.symm (by decide)
        · exact ih (rest.dropWhile isJsWs)
            (le_trans (List.dropWhile_sublist _).length_le hf) h
      · intro hmem
        rcases List.mem_cons.mp hmem with h | h
        · rename_i hc
          rw [← h] at hc
          exact hc (by decide)
        · exact ih rest hf h

/-- The head of `collapseWsAux`'s output is the head of the input, with
a whitespace head replaced by a single space. -/
theorem head?_collapseWsAux (fuel : Nat) (l : List Char) :
    (collapseWsAux fuel l).head? = (if fuel = 0 then l.head? else
      l.head?.map (fun c => if isJsWs c then ' ' else c)) := by
  cases fuel with
  | zero => simp [collapseWsAux]
  | succ n =>
    cases l with
    | nil => simp [collapseWsAux]
    | cons c rest =>
      simp only [collapseWsAux]
      split <;> rename_i hc <;> simp [hc]

/-- The whitespace-collapse step leaves no two adjacent whitespace
characters: each emitted space is followed by a non-whitespace
character (the next whitespace run having been swallowed). -/
theorem chain'_collapseWsAux (fuel : Nat) (l : List Char) (hf : l.length ≤ fuel) :
    (collapseWsAux fuel l).Chain' (fun a b => ¬(isJsWs a ∧ isJsWs b)) := by
  induction fuel generalizing l with
  | zero =>
    have : l = [] := List.length_eq_zero.mp (Nat.le_zero.mp hf)
    subst this; simp [collapseWsAux]
  | succ n ih =>
    cases l with
    | nil => simp [collapseWsAux]
    | cons c rest =>
      simp only [List.length_cons, Nat.succ_le_succ_iff] at hf
      simp only [collapseWsAux]
      split
      · rename_i hc
        have hrec := ih (rest.dropWhile isJsWs)
          (le_trans (List.dropWhile_sublist _).length_le hf)
        rw [List.chain'_cons']
        refine ⟨?_, hrec⟩
        intro y hy
        rw [head?_collapseWsAux] at hy
        intro ⟨_, hyws⟩
        by_cases hn : n = 0
        · rw [if_pos hn] at hy
          have := head?_dropWhile_not isJsWs rest y hy
          rw [this] at hyws; exact Bool.false_ne_true hyws
        · rw [if_neg hn] at hy
          rcases Option.map_eq_some'.mp hy with ⟨d, hd, hdy⟩
          have hdws := head?_dropWhile_not isJsWs rest d hd
          rw [← hdy, if_neg (by simp [hdws])] at hyws
          rw [hdws] at hyws; exact Bool.false_ne_true hyws
      · rename_i hc
        have hrec := ih rest hf
        rw [List.chain'_cons']
        refine ⟨?_, hrec⟩
        intro y _
        intro ⟨hcws, _⟩
        exact hc hcws

/-- On a newline-free input, `/\n\s*\n/` matches nothing, so the
blank-line collapsing step is the identity. -/
theorem collapseBlankAux_id (fuel : Nat) (l : List Char)
    (h : '\n' ∉ l) : collapseBlankAux fuel l = l := by
  induction fuel generalizing l with
  | zero => rfl
  | succ n ih =>
    cases l with
    | nil => rfl
    | cons c rest =>
      have hc : ¬ c = '\n' := fun hh => h (hh ▸ List.mem_cons_self c rest)
      simp only [collapseBlankAux, blankLinesMatcher, if_neg hc]
      rw [ih rest (fun hm => h (List.mem_cons_of_mem c hm))]

theorem jsTrim_subset (l : List Char) : jsTrim l ⊆ l := by
  unfold jsTrim
  intro c hc
  have h1 : ((l.dropWhile isJsWs).reverse.dropWhile isJsWs).Sublist
      (l.dropWhile isJsWs).reverse := List.dropWhile_sublist _
  have h2 := (h1.reverse).subset hc
  rw [List.reverse_reverse] at h2
  exact (List.dropWhile_sublist _).subset h2

theorem jsTrim_chain' {R : Char → Char → Prop} (l : List Char)
    (h : l.Chain' R) : (jsTrim l).Chain' R := by
  unfold jsTrim
  have h1 : (l.dropWhile isJsWs).Chain' R :=
    h.infix (List.dropWhile_suffix _).isInfix
  have h2 : ((l.dropWhile isJsWs).reverse.dropWhile isJsWs).reverse <+:
      l.dropWhile isJsWs := by
    have h3 : (l.dropWhile isJsWs).reverse.dropWhile isJsWs <:+
        (l.dropWhile isJsWs).reverse := List.dropWhile_suffix _
    have h4 := List.reverse_prefix.mpr h3
    rwa [List.reverse_reverse] at h4
  exact h1.infix h2.isInfix

/-- C10: For every input string, the output of cleanText contains no
newline character and no two consecutive whitespace characters: all
whitespace runs (including all newlines) are collapsed to single spaces
before the blank-line collapsing step, which therefore never matches
anything. -/
theorem cleanText_no_newline_no_double_ws (s : String) :
    (∀ c ∈ (cleanText s).data, c ≠ '\n') ∧
    (cleanText s).data.Chain' (fun a b => ¬(isJsWs a ∧ isJsWs b)) ∧
    collapseBlankLines (collapseWs (stripChapterLines (stripPageLines s.data))) =
      collapseWs (stripChapterLines (stripPageLines s.data)) := by
  set m := collapseWs (stripChapterLines (stripPageLines s.data)) with hm
  have hnl : '\n' ∉ m := newline_not_mem_collapseWsAux _ _ le_rfl
  have hch : m.Chain' (fun a b => ¬(isJsWs a ∧ isJsWs b)) :=
    chain'_collapseWsAux _ _ le_rfl
  have hid : collapseBlankLines m = m := collapseBlankAux_id _ _ hnl
  have hdata : (cleanText s).data = jsTrim m := by
    simp only [cleanText, cleanTextL, String.data]
    rw [← hm, hid]
  refine ⟨?_, ?_, hid⟩
  · intro c hc
    rw [hdata] at hc
    exact fun hcn => hnl (hcn ▸ jsTrim_subset m hc)
  · rw [hdata]
    exact jsTrim_chain' m hch

/-- C1: The chunking function (chunkText) terminates for every input
text: iteration over the sliding word window stops when the window
start reaches or passes the end of the word sequence, so for every
string the function returns a finite list of chunks.

REFUTED AS STATED — the code diverges on every input.  With the default
parameters, `overlapWords = ⌊120 / 1.3⌋ = 92 ≥ 1`; `text.split(/\s+/)`
always yields at least one element; and each iteration sets
`start = min(start + maxWords, words.length) - overlapWords`, which is
strictly below `words.length`.  Hence the `break` (`start >=
words.length`) is unreachable and the `while` condition always holds:
for every fuel bound and every input string the loop is still running
(`chunkTextFuel fuel text = none`). -/
theorem chunkText_diverges (fuel : Nat) (text : List Char) :
    chunkTextFuel fuel text = none := by
  have hov : (1 : Int) ≤ ⌊(120 : ℚ) * wordsPerToken⌋ := by
    rw [Int.le_floor]
    norm_num [wordsPerToken]
  have hlen := splitWs_length_pos text
  have hstart : (0 : Int) < ((splitWs text).length : Int) := by exact_mod_cast hlen
  exact chunkTextLoop_none _ _ hov (splitWs text) fuel 0 [] hstart

/-! ## Embedding retry (`getEmbeddingWithRetry`, ingest.ts lines 336–360)

```js
async function getEmbeddingWithRetry(text, maxRetries = 3) {
  for (let attempt = 1; attempt <= maxRetries; attempt++) {
    try {
      const response = await openai.embeddings.create({...});
      return response.data[0].embedding;
    } catch (error) {
      if (attempt === maxRetries) { throw error; }
      const backoffMs = Math.pow(2, attempt - 1) * 1000;
      await sleep(backoffMs);
    }
  }
  throw new Error('Max retries exceeded');
}
```

The remote call is modelled as `api : Nat → Except String E` giving the
outcome of each attempt; sleeps are recorded (in milliseconds) instead
of performed. -/

structure RetryResult (E : Type) where
  result : Except String E
  attempts : List Nat
  backoffs : List Nat
deriving Repr

/-- The `for` loop of `getEmbeddingWithRetry`, structurally recursive on
the number of remaining attempts (`maxRetries - attempt + 1`); a
remaining count of zero corresponds to falling off the loop, i.e. the
dead `throw new Error('Max retries exceeded')`. -/
def retryGo (api : Nat → Except String E) : Nat → Nat → RetryResult E
  | _, 0 => ⟨.error "Max retries exceeded", [], []⟩
  | attempt, remaining + 1 =>
    match api attempt with
    | .ok v => ⟨.ok v, [attempt], []⟩
    | .error e =>
      if remaining = 0 then ⟨.error e, [attempt], []⟩
      else
        let r := retryGo api (attempt + 1) remaining
        ⟨r.result, attempt :: r.attempts, 2 ^ (attempt - 1) * 1000 :: r.backoffs⟩

/-- `getEmbeddingWithRetry(text, maxRetries)`; attempts are numbered
from 1 as in the source. -/
def getEmbeddingWithRetry (api : Nat → Except String E) (maxRetries : Nat) : RetryResult E :=
  retryGo api 1 maxRetries

/-- C3: The embedding call (getEmbeddingWithRetry) makes at most 3
attempts; each failure other than on the final attempt is followed by a
backoff of 2^(attempt-1) seconds (1s then 2s) before retrying; a call
that fails twice then succeeds on the third attempt returns the
embedding with no error surfaced, and a call whose attempts are all
failures propagates the last error with total elapsed backoff time of
at least 1s + 2s. -/
theorem getEmbeddingWithRetry_spec {E : Type} (api : Nat → Except String E) :
    (getEmbeddingWithRetry api 3).attempts.length ≤ 3 ∧
    (∀ e1 e2 v, api 1 = .error e1 → api 2 = .error e2 → api 3 = .ok v →
      (getEmbeddingWithRetry api 3).result = .ok v ∧
      (getEmbeddingWithRetry api 3).backoffs = [1000, 2000]) ∧
    (∀ e1 e2 e3, api 1 = .error e1 → api 2 = .error e2 → api 3 = .error e3 →
      (getEmbeddingWithRetry api 3).result = .error e3 ∧
      (getEmbeddingWithRetry api 3).backoffs = [1000, 2000] ∧
      1000 + 2000 ≤ (getEmbeddingWithRetry api 3).backoffs.sum) := by
  refine ⟨?_, ?_, ?_⟩
  · rcases h1 : api 1 with e1 | v1 <;>
      rcases h2 : api 2 with e2 | v2 <;>
      rcases h3 : api 3 with e3 | v3 <;>
      simp [getEmbeddingWithRetry, retryGo, h1, h2, h3]
  · intro e1 e2 v h1 h2 h3
    constructor <;> simp [getEmbeddingWithRetry, retryGo, h1, h2, h3]
  · intro e1 e2 e3 h1 h2 h3
    refine ⟨?_, ?_, ?_⟩ <;> simp [getEmbeddingWithRetry, retryGo, h1, h2, h3]

/-- A concrete attempt oracle that fails twice and succeeds on the
third attempt. -/
def retryApiW : Nat → Except String Nat :=
  fun n => if n = 3 then .ok 42 else .error "rate limited"

theorem getEmbeddingWithRetry_spec_witness :
    (getEmbeddingWithRetry retryApiW 3).result = .ok 42 ∧
    (getEmbeddingWithRetry retryApiW 3).backoffs = [1000, 2000] :=
  (getEmbeddingWithRetry_spec retryApiW).2.1 "rate limited" "rate limited" 42 rfl rfl rfl

/-! ## Chunk persistence with content-hash cache
(`generateContentHash`, `processEmbeddingsBatch`, ingest.ts lines 330–447)

The `rag.embeddings` table has a unique constraint on `content_hash`;
it is modelled as a map from hashes to rows.  `generateContentHash`
(SHA-256 over the chunk text) is modelled as a parameter
`hash : List Char → H` (injective when the claim relies on SHA-256
being collision-free).  The per-chunk embedding resolution
(`getEmbeddingWithRetry`, whose retry behaviour is verified separately
above) is abstracted as `api : List Char → Option E`, `none` meaning
all retries were exhausted.  The chunks of one document are processed
in batches of 10 with an inter-batch sleep.  Two models are given: the
in-order per-chunk linearization below (`processChunksFrom` /
`processEmbeddingsBatch`), used only for facts that are insensitive to
how the tasks of one batch interleave (per-chunk outcomes, frame and
preservation of existing rows, the READY update); and the faithful
batch phase structure (`processBatchPhased` /
`processEmbeddingsBatchPhased`, further below), which captures that the
ten tasks of a batch each queue their cache SELECT on the single `pg`
client before any task awaits, so all of a batch's cache lookups
execute against the pre-batch table, before any of the batch's
INSERTs — in particular two byte-identical chunks in one batch both
miss the cache. -/

structure EmbRow (H E : Type) where
  document_id : Nat
  chunk_index : Nat
  content : List Char
  content_hash : H
  embedding : E
  token_count : Int

/-- The `rag.embeddings` table, keyed by its `content_hash` unique
constraint. -/
def EmbDB (H E : Type) := H → Option (EmbRow H E)

/-- ```sql
INSERT INTO rag.embeddings (document_id, chunk_index, content,
  content_hash, embedding, token_count, created_at)
VALUES (...)
ON CONFLICT (content_hash) DO UPDATE SET
  document_id = EXCLUDED.document_id,
  chunk_index = EXCLUDED.chunk_index,
  updated_at = CURRENT_TIMESTAMP
``` -/
def upsertEmbedding [DecidableEq H] (db : EmbDB H E) (row : EmbRow H E) : EmbDB H E :=
  fun h =>
    if h = row.content_hash then
      match db row.content_hash with
      | some old =>
        some { old with document_id := row.document_id, chunk_index := row.chunk_index }
      | none => some row
    else db h

/-- The per-chunk task of `processEmbeddingsBatch`: look the content
hash up in `rag.embeddings` (the cache), reuse the stored embedding on
a hit, otherwise call the embedding API; then upsert.  A failed
embedding call is caught and reported as `success = false`.  Returns
the new table, the success flag, and the log of embedding-API
invocations (the chunk texts passed to `getEmbeddingWithRetry`). -/
def processChunk [DecidableEq H] (hash : List Char → H) (api : List Char → Option E)
    (db : EmbDB H E) (docId idx : Nat) (chunk : List Char) :
    EmbDB H E × Bool × List (List Char) :=
  match db (hash chunk) with
  | some cached =>
    (upsertEmbedding db
      { document_id := docId, chunk_index := idx, content := chunk,
        content_hash := hash chunk, embedding := cached.embedding,
        token_count := estimateTokens chunk }, true, [])
  | none =>
    match api chunk with
    | some e =>
      (upsertEmbedding db
        { document_id := docId, chunk_index := idx, content := chunk,
          content_hash := hash chunk, embedding := e,
          token_count := estimateTokens chunk }, true, [chunk])
    | none => (db, false, [chunk])

/-- In-order linearization of the per-chunk tasks starting at
`chunk_index = i`: returns the final table, the per-chunk success flags
(in chunk order), and the concatenated embedding-API invocation log.
Faithful only up to the intra-batch interleaving (see the batch phase
model below); used for interleaving-insensitive facts. -/
def processChunksFrom [DecidableEq H] (hash : List Char → H) (api : List Char → Option E)
    (docId : Nat) : EmbDB H E → Nat → List (List Char) →
      EmbDB H E × List Bool × List (List Char)
  | db, _, [] => (db, [], [])
  | db, i, chunk :: rest =>
    match processChunk hash api db docId i chunk with
    | (db1, ok, calls) =>
      match processChunksFrom hash api docId db1 (i + 1) rest with
      | (db2, oks, calls2) => (db2, ok :: oks, calls ++ calls2)

/-- `processEmbeddingsBatch(chunks, client, dbDocId)` under the
in-order linearization of its per-chunk tasks (interleaving-insensitive
facts only; the faithful batch concurrency model is
`processEmbeddingsBatchPhased` below). -/
def processEmbeddingsBatch [DecidableEq H] (hash : List Char → H)
    (api : List Char → Option E) (db : EmbDB H E) (docId : Nat)
    (chunks : List (List Char)) : EmbDB H E × List Bool × List (List Char) :=
  processChunksFrom hash api docId db 0 chunks

/-- The document update performed by the ingestion handler after
`processEmbeddingsBatch` returns (ingest.ts lines 584–598): preview,
`status: 'READY'`, `chunks_count: chunks.length`, and the summed token
estimate. -/
structure DocUpdate where
  status : String
  chunks_count : Nat
  total_tokens : Int
  content_preview : List Char

def readyUpdate (cleanedText : List Char) (chunks : List (List Char)) : DocUpdate :=
  { status := "READY",
    chunks_count := chunks.length,
    total_tokens := (chunks.map estimateTokens).sum,
    content_preview := cleanedText.take 10000 }

/-! ## Facts about chunk persistence -/

/-- Processing one chunk never rewrites the content, content hash,
embedding or token count of any existing row: a conflict updates only
`document_id` and `chunk_index`, and inserts happen only at hashes with
no row. -/
theorem processChunk_preserves [DecidableEq H] (hash : List Char → H)
    (api : List Char → Option E) (db : EmbDB H E) (docId idx : Nat)
    (chunk : List Char) (h : H) (r : EmbRow H E) (hr : db h = some r) :
    ∃ r', (processChunk hash api db docId idx chunk).1 h = some r' ∧
      r'.embedding = r.embedding ∧ r'.content = r.content ∧
      r'.content_hash = r.content_hash ∧ r'.token_count = r.token_count := by
  unfold processChunk
  by_cases hh : h = hash chunk
  · subst hh
    rw [hr]
    refine ⟨{ r with document_id := docId, chunk_index := idx }, ?_, rfl, rfl, rfl, rfl⟩
    simp only [upsertEmbedding, if_true]
    rw [hr]
  · rcases hdb : db (hash chunk) with _ | cached
    · rcases hapi : api chunk with _ | e
      · exact ⟨r, hr, rfl, rfl, rfl, rfl⟩
      · refine ⟨r, ?_, rfl, rfl, rfl, rfl⟩
        simp only [upsertEmbedding, if_neg hh]
        exact hr
    · refine ⟨r, ?_, rfl, rfl, rfl, rfl⟩
      simp only [upsertEmbedding, if_neg hh]
      exact hr

/-- Whole-run version of `processChunk_preserves`: once a row exists for
a content hash, its embedding (and content, hash and token count) are
never rewritten by any further chunk processing. -/
theorem processChunksFrom_preserves [DecidableEq H] (hash : List Char → H)
    (api : List Char → Option E) (docId : Nat) :
    ∀ (chunks : List (List Char)) (db : EmbDB H E) (i : Nat) (h : H) (r : EmbRow H E),
      db h = some r →
      ∃ r', (processChunksFrom hash api docId db i chunks).1 h = some r' ∧
        r'.embedding = r.embedding ∧ r'.content = r.content ∧
        r'.content_hash = r.content_hash ∧ r'.token_count = r.token_count := by
  intro chunks
  induction chunks with
  | nil => intro db i h r hr; exact ⟨r, hr, rfl, rfl, rfl, rfl⟩
  | cons chunk rest ih =>
    intro db i h r hr
    obtain ⟨r1, hr1, he1, hc1, hh1, ht1⟩ :=
      processChunk_preserves hash api db docId i chunk h r hr
    obtain ⟨r2, hr2, he2, hc2, hh2, ht2⟩ :=
      ih (processChunk hash api db docId i chunk).1 (i + 1) h r1 hr1
    refine ⟨r2, ?_, by rw [he2, he1], by rw [hc2, hc1], by rw [hh2, hh1], by rw [ht2, ht1]⟩
    simp only [processChunksFrom]
    rcases hstep : processChunk hash api db docId i chunk with ⟨db1, ok, calls⟩
    rcases hrest : processChunksFrom hash api docId db1 (i + 1) rest with ⟨db2, oks, calls2⟩
    rw [hstep] at hr2
    rw [hrest] at hr2
    exact hr2

/-- C5: The chunk persistence upsert is keyed on content_hash, and on
conflict it reassigns only document_id and chunk_index of the existing
row; the embedding value (and the chunk content and content_hash) is
never rewritten after first insertion.

The first conjunct shows the conflict update literally produces the old
row with only `document_id` and `chunk_index` replaced; the second that
no other key is touched; the third that across any subsequent chunk
processing the embedding, content, content hash (and token count) of an
existing row survive unchanged. -/
theorem upsert_conflict_reassigns_only_document (hash : List Char → H)
    [DecidableEq H] (api : List Char → Option E) (docId i : Nat)
    (chunks : List (List Char)) (db : EmbDB H E) (row old : EmbRow H E)
    (hconf : db row.content_hash = some old) :
    upsertEmbedding db row row.content_hash =
      some { old with document_id := row.document_id, chunk_index := row.chunk_index } ∧
    (∀ h, h ≠ row.content_hash → upsertEmbedding db row h = db h) ∧
    (∃ r', (processChunksFrom hash api docId db i chunks).1 row.content_hash = some r' ∧
      r'.embedding = old.embedding ∧ r'.content = old.content ∧
      r'.content_hash = old.content_hash ∧ r'.token_count = old.token_count) := by
  refine ⟨?_, ?_, ?_⟩
  · simp only [upsertEmbedding, if_true]
    rw [hconf]
  · intro h hh
    simp only [upsertEmbedding, if_neg hh]
  · exact processChunksFrom_preserves hash api docId chunks db i row.content_hash old hconf

/-- Concrete instantiation for `upsert_conflict_reassigns_only_document`:
a one-row table keyed by hash `7`, re-upserted from document 2. -/
theorem upsert_conflict_reassigns_only_document_witness :
    upsertEmbedding (fun h => if h = 7 then some ⟨1, 0, ['a'], 7, 99, 2⟩ else none)
        ⟨2, 5, ['a'], 7, 0, 2⟩ (7 : Nat) = some ⟨2, 5, ['a'], 7, 99, 2⟩ ∧
    (∀ h, h ≠ (7 : Nat) → upsertEmbedding
        (fun h => if h = 7 then some ⟨1, 0, ['a'], (7 : Nat), (99 : Nat), 2⟩ else none)
        ⟨2, 5, ['a'], 7, 0, 2⟩ h =
      (fun h => if h = 7 then some (⟨1, 0, ['a'], 7, 99, 2⟩ : EmbRow Nat Nat) else none) h) ∧
    (∃ r', (processChunksFrom (fun _ => 0) (fun _ => none) 4
        (fun h => if h = 7 then some ⟨1, 0, ['a'], 7, 99, 2⟩ else none) 0 []).1 7 = some r' ∧
      r'.embedding = 99 ∧ r'.content = ['a'] ∧ r'.content_hash = 7 ∧ r'.token_count = 2) :=
  upsert_conflict_reassigns_only_document (fun _ => 0) (fun _ => none) 4 0 []
    (fun h => if h = 7 then some ⟨1, 0, ['a'], 7, 99, 2⟩ else none)
    ⟨2, 5, ['a'], 7, 0, 2⟩ ⟨1, 0, ['a'], 7, 99, 2⟩ (by simp)

/-! ## Faithful batch concurrency of `processEmbeddingsBatch`

One batch is started as `batch.map(async (chunk, batchIndex) => ...)`:
each task runs synchronously up to its first `await`, queueing its
cache SELECT on the single `pg` client before any task awaits, so all
of a batch's cache lookups execute against the table as it stood when
the batch started — before any of the batch's INSERTs.  Consequently
two byte-identical chunks in the same batch each miss the cache and
each invoke the embedding API.  `processBatchPhased` models one batch
with this phase structure: lookups from the pre-batch table, embedding
calls for the misses, then the upserts (their relative order is
timing-dependent in the source; the facts proved below do not depend on
it).  `processEmbeddingsBatchPhased` runs the batches of 10 strictly in
sequence, as the source awaits `Promise.allSettled` (and sleeps)
between batches. -/

/-- One task's embedding resolution, reading the pre-batch table: the
resolved embedding (`none` = retries exhausted) and whether the
embedding API was invoked. -/
def taskResolve (hash : List Char → H) (api : List Char → Option E)
    (db : EmbDB H E) (c : List Char) : Option E × Bool :=
  match db (hash c) with
  | some cached => (some cached.embedding, false)
  | none => (api c, true)

/-- The upsert phase of a batch: the successful tasks' `INSERT … ON
CONFLICT` statements, in task order. -/
def applyUpserts [DecidableEq H] (hash : List Char → H) (docId : Nat) :
    EmbDB H E → Nat → List (List Char × Option E) → EmbDB H E
  | db, _, [] => db
  | db, j, (c, some e) :: rest =>
    applyUpserts hash docId
      (upsertEmbedding db
        { document_id := docId, chunk_index := j, content := c,
          content_hash := hash c, embedding := e, token_count := estimateTokens c })
      (j + 1) rest
  | db, j, (_, none) :: rest => applyUpserts hash docId db (j + 1) rest

/-- One batch of `processEmbeddingsBatch` with the source's phase
structure.  Returns the new table, the per-task success flags, and the
embedding-API invocation log. -/
def processBatchPhased [DecidableEq H] (hash : List Char → H) (api : List Char → Option E)
    (db : EmbDB H E) (docId i : Nat) (batch : List (List Char)) :
    EmbDB H E × List Bool × List (List Char) :=
  (applyUpserts hash docId db i (batch.map (fun c => (c, (taskResolve hash api db c).1))),
   batch.map (fun c => ((taskResolve hash api db c).1).isSome),
   batch.filterMap (fun c => if (taskResolve hash api db c).2 then some c else none))

/-- The batch loop `for (let i = 0; i < chunks.length; i += batchSize)`
with `batchSize = 10`; fuel-indexed (each step consumes at least one
chunk, so fuel equal to the chunk count always suffices). -/
def processBatches [DecidableEq H] (hash : List Char → H) (api : List Char → Option E)
    (docId : Nat) : Nat → EmbDB H E → Nat → List (List Char) →
      EmbDB H E × List Bool × List (List Char)
  | _, db, _, [] => (db, [], [])
  | 0, db, _, _ :: _ => (db, [], [])
  | fuel+1, db, i, c :: rest =>
    match processBatchPhased hash api db docId i ((c :: rest).take 10) with
    | (db1, oks, calls) =>
      match processBatches hash api docId fuel db1 (i + 10) ((c :: rest).drop 10) with
      | (db2, oks2, calls2) => (db2, oks ++ oks2, calls ++ calls2)

/-- `processEmbeddingsBatch(chunks, client, dbDocId)` with the faithful
batch phase structure. -/
def processEmbeddingsBatchPhased [DecidableEq H] (hash : List Char → H)
    (api : List Char → Option E) (db : EmbDB H E) (docId : Nat)
    (chunks : List (List Char)) : EmbDB H E × List Bool × List (List Char) :=
  processBatches hash api docId chunks.length db 0 chunks

/-- The successive batches of 10 a chunk list is processed in. -/
def batchesOf : Nat → List (List Char) → List (List (List Char))
  | _, [] => []
  | 0, _ :: _ => []
  | fuel+1, c :: rest => (c :: rest).take 10 :: batchesOf fuel ((c :: rest).drop 10)

def chunkBatches (chunks : List (List Char)) : List (List (List Char)) :=
  batchesOf chunks.length chunks

/-! ## Facts about the batch phase model -/

/-- A single upsert never rewrites the embedding, content, content hash
or token count of an existing row. -/
theorem upsertEmbedding_preserves [DecidableEq H] (db : EmbDB H E) (row : EmbRow H E)
    (h : H) (r : EmbRow H E) (hr : db h = some r) :
    ∃ r', upsertEmbedding db row h = some r' ∧ r'.embedding = r.embedding ∧
      r'.content = r.content ∧ r'.content_hash = r.content_hash ∧
      r'.token_count = r.token_count := by
  by_cases hh : h = row.content_hash
  · refine ⟨{ r with document_id := row.document_id, chunk_index := row.chunk_index },
      ?_, rfl, rfl, rfl, rfl⟩
    subst hh
    simp only [upsertEmbedding, if_true]
    rw [hr]
  · refine ⟨r, ?_, rfl, rfl, rfl, rfl⟩
    simp only [upsertEmbedding, if_neg hh]
    exact hr

theorem applyUpserts_preserves [DecidableEq H] (hash : List Char → H) (docId : Nat) :
    ∀ (tasks : List (List Char × Option E)) (db : EmbDB H E) (j : Nat) (h : H)
      (r : EmbRow H E), db h = some r →
      ∃ r', applyUpserts hash docId db j tasks h = some r' ∧
        r'.embedding = r.embedding ∧ r'.content = r.content ∧
        r'.content_hash = r.content_hash ∧ r'.token_count = r.token_count := by
  intro tasks
  induction tasks with
  | nil => intro db j h r hr; exact ⟨r, hr, rfl, rfl, rfl, rfl⟩
  | cons t rest ih =>
    intro db j h r hr
    rcases t with ⟨c, _ | e⟩
    · exact ih db (j + 1) h r hr
    · obtain ⟨r1, hr1, he1, hc1, hh1, ht1⟩ := upsertEmbedding_preserves db
        { document_id := docId, chunk_index := j, content := c,
          content_hash := hash c, embedding := e, token_count := estimateTokens c }
        h r hr
      obtain ⟨r2, hr2, he2, hc2, hh2, ht2⟩ := ih _ (j + 1) h r1 hr1
      exact ⟨r2, hr2, by rw [he2, he1], by rw [hc2, hc1], by rw [hh2, hh1],
        by rw [ht2, ht1]⟩

/-- Upserts at other content hashes do not touch the key `hKey`. -/
theorem applyUpserts_untouched [DecidableEq H] (hash : List Char → H) (docId : Nat)
    (hKey : H) :
    ∀ (tasks : List (List Char × Option E)) (db : EmbDB H E) (j : Nat),
      (∀ p ∈ tasks, hash p.1 ≠ hKey) →
      applyUpserts hash docId db j tasks hKey = db hKey := by
  intro tasks
  induction tasks with
  | nil => intro db j _; rfl
  | cons t rest ih =>
    intro db j hne
    rcases t with ⟨c, _ | e⟩
    · exact ih db (j + 1) (fun p hp => hne p (List.mem_cons_of_mem _ hp))
    · have hstep : upsertEmbedding db
          { document_id := docId, chunk_index := j, content := c,
            content_hash := hash c, embedding := e, token_count := estimateTokens c }
          hKey = db hKey := by
        simp only [upsertEmbedding]
        rw [if_neg (fun hcontra =>
          hne (c, some e) (List.mem_cons_self _ _) hcontra.symm)]
      rw [show applyUpserts hash docId db j ((c, some e) :: rest) hKey =
          applyUpserts hash docId (upsertEmbedding db
            { document_id := docId, chunk_index := j, content := c,
              content_hash := hash c, embedding := e, token_count := estimateTokens c })
            (j + 1) rest hKey from rfl]
      rw [ih _ (j + 1) (fun p hp => hne p (List.mem_cons_of_mem _ hp)), hstep]

/-- If no row exists for the hash of `c` and some task carries `c`
(with the successful embedding `e`), the upsert phase inserts a row
with embedding `e` at that hash. -/
theorem applyUpserts_fresh [DecidableEq H] (hash : List Char → H)
    (hinj : Function.Injective hash) (docId : Nat) (c : List Char) (e : E) :
    ∀ (tasks : List (List Char × Option E)) (db : EmbDB H E) (j : Nat),
      db (hash c) = none →
      (∀ p ∈ tasks, p.1 = c → p.2 = some e) →
      (∃ p ∈ tasks, p.1 = c) →
      ∃ r, applyUpserts hash docId db j tasks (hash c) = some r ∧ r.embedding = e := by
  intro tasks
  induction tasks with
  | nil =>
    intro db j _ _ hex
    obtain ⟨p, hp, -⟩ := hex
    exact absurd hp (List.not_mem_nil p)
  | cons t rest ih =>
    intro db j hdb hall hex
    rcases t with ⟨x, pay⟩
    by_cases hxc : x = c
    · subst hxc
      have hpay : pay = some e := hall (x, pay) (List.mem_cons_self _ _) rfl
      subst hpay
      have hins : upsertEmbedding db
          { document_id := docId, chunk_index := j, content := x,
            content_hash := hash x, embedding := e, token_count := estimateTokens x }
          (hash x) = some
          { document_id := docId, chunk_index := j, content := x,
            content_hash := hash x, embedding := e, token_count := estimateTokens x } := by
        simp only [upsertEmbedding, if_true]
        rw [hdb]
      obtain ⟨r2, hr2, he2, -, -, -⟩ := applyUpserts_preserves hash docId rest
        (upsertEmbedding db
          { document_id := docId, chunk_index := j, content := x,
            content_hash := hash x, embedding := e, token_count := estimateTokens x })
        (j + 1) (hash x) _ hins
      exact ⟨r2, hr2, by rw [he2]⟩
    · have hrest : ∃ p ∈ rest, p.1 = c := by
        obtain ⟨p, hp, hpc⟩ := hex
        rcases List.mem_cons.mp hp with hp1 | hp1
        · rw [hp1] at hpc
          exact absurd hpc hxc
        · exact ⟨p, hp1, hpc⟩
      have hall' : ∀ p ∈ rest, p.1 = c → p.2 = some e :=
        fun p hp => hall p (List.mem_cons_of_mem _ hp)
      rcases pay with _ | e'
      · exact ih db (j + 1) hdb hall' hrest
      · have hdb' : upsertEmbedding db
            { document_id := docId, chunk_index := j, content := x,
              content_hash := hash x, embedding := e', token_count := estimateTokens x }
            (hash c) = none := by
          simp only [upsertEmbedding]
          rw [if_neg (fun hcontra => hxc (hinj hcontra).symm)]
          exact hdb
        exact ih _ (j + 1) hdb' hall' hrest

/-- Count of a content in the log of a filterMap-selected sublist. -/
theorem filterMapIf_count (cond : List Char → Bool) (c : List Char) :
    ∀ batch : List (List Char),
      (batch.filterMap (fun x => if cond x then some x else none)).count c =
        if cond c then batch.count c else 0 := by
  intro batch
  induction batch with
  | nil => simp
  | cons x rest ih =>
    by_cases hx : cond x <;> by_cases hcx : x = c
    · subst hcx
      simp [List.filterMap_cons, hx, List.count_cons, ih]
    · simp [List.filterMap_cons, hx, List.count_cons, ih, hcx, beq_iff_eq]
    · subst hcx
      simp [List.filterMap_cons, hx, List.count_cons, ih]
    · simp [List.filterMap_cons, hx, List.count_cons, ih, hcx, beq_iff_eq]

/-- When the pre-batch lookup for `c` misses, every occurrence of `c`
in the batch invokes the embedding API. -/
theorem processBatchPhased_calls_of_miss [DecidableEq H] (hash : List Char → H)
    (api : List Char → Option E) (db : EmbDB H E) (docId i : Nat)
    (batch : List (List Char)) (c : List Char) (hdb : db (hash c) = none) :
    ((processBatchPhased hash api db docId i batch).2.2).count c = batch.count c := by
  show (batch.filterMap
      (fun x => if (taskResolve hash api db x).2 then some x else none)).count c = _
  rw [filterMapIf_count]
  have hcond : (taskResolve hash api db c).2 = true := by
    unfold taskResolve
    rw [hdb]
  rw [if_pos hcond]

/-- When a row for `c`'s hash already exists, no occurrence of `c` in
the batch invokes the embedding API. -/
theorem processBatchPhased_calls_of_hit [DecidableEq H] (hash : List Char → H)
    (api : List Char → Option E) (db : EmbDB H E) (docId i : Nat)
    (batch : List (List Char)) (c : List Char) (r : EmbRow H E)
    (hdb : db (hash c) = some r) :
    ((processBatchPhased hash api db docId i batch).2.2).count c = 0 := by
  show (batch.filterMap
      (fun x => if (taskResolve hash api db x).2 then some x else none)).count c = _
  rw [filterMapIf_count]
  have hcond : (taskResolve hash api db c).2 = false := by
    unfold taskResolve
    rw [hdb]
  rw [if_neg (by rw [hcond]; exact fun hh => Bool.noConfusion hh)]

/-- A batch never rewrites the embedding, content, content hash or
token count of an existing row. -/
theorem processBatchPhased_preserves [DecidableEq H] (hash : List Char → H)
    (api : List Char → Option E) (db : EmbDB H E) (docId i : Nat)
    (batch : List (List Char)) (h : H) (r : EmbRow H E) (hr : db h = some r) :
    ∃ r', (processBatchPhased hash api db docId i batch).1 h = some r' ∧
      r'.embedding = r.embedding ∧ r'.content = r.content ∧
      r'.content_hash = r.content_hash ∧ r'.token_count = r.token_count :=
  applyUpserts_preserves hash docId _ db i h r hr

/-- A chunk text appears in a batch's embedding-call log only if its
pre-batch cache lookup missed. -/
theorem processBatchPhased_call_mem [DecidableEq H] (hash : List Char → H)
    (api : List Char → Option E) (db : EmbDB H E) (docId i : Nat)
    (batch : List (List Char)) (c : List Char)
    (hc : c ∈ (processBatchPhased hash api db docId i batch).2.2) :
    db (hash c) = none ∧ c ∈ batch := by
  have hmem : c ∈ batch.filterMap
      (fun x => if (taskResolve hash api db x).2 then some x else none) := hc
  rw [List.mem_filterMap] at hmem
  obtain ⟨x, hx, hfx⟩ := hmem
  by_cases hcx : (taskResolve hash api db x).2
  · rw [if_pos hcx] at hfx
    have hxc : x = c := Option.some.inj hfx
    subst hxc
    refine ⟨?_, hx⟩
    unfold taskResolve at hcx
    rcases hdb : db (hash x) with _ | cached
    · rfl
    · rw [hdb] at hcx
      exact absurd hcx (fun hh => Bool.noConfusion hh)
  · rw [if_neg hcx] at hfx
    exact Option.noConfusion hfx

/-- If no row exists for the hash of `c`, `c` is in the batch, and the
embedding call for `c` succeeds with `e`, the batch leaves a row with
embedding `e`. -/
theorem processBatchPhased_fresh [DecidableEq H] (hash : List Char → H)
    (hinj : Function.Injective hash) (api : List Char → Option E)
    (db : EmbDB H E) (docId i : Nat) (batch : List (List Char)) (c : List Char) (e : E)
    (hdb : db (hash c) = none) (hapi : api c = some e) (hmem : c ∈ batch) :
    ∃ r, (processBatchPhased hash api db docId i batch).1 (hash c) = some r ∧
      r.embedding = e := by
  have hres : (taskResolve hash api db c).1 = some e := by
    unfold taskResolve
    rw [hdb, hapi]
  apply applyUpserts_fresh hash hinj docId c e _ db i hdb
  · intro p hp hpc
    rw [List.mem_map] at hp
    obtain ⟨x, hx, hpx⟩ := hp
    rw [← hpx] at hpc
    rw [← hpx]
    show (taskResolve hash api db x).1 = some e
    rw [show x = c from hpc]
    exact hres
  · exact ⟨(c, (taskResolve hash api db c).1), List.mem_map.mpr ⟨c, hmem, rfl⟩, rfl⟩

/-- A batch not containing `c` does not create a row at `hash c`. -/
theorem processBatchPhased_untouched [DecidableEq H] (hash : List Char → H)
    (hinj : Function.Injective hash) (api : List Char → Option E)
    (db : EmbDB H E) (docId i : Nat) (batch : List (List Char)) (c : List Char)
    (hnb : c ∉ batch) :
    (processBatchPhased hash api db docId i batch).1 (hash c) = db (hash c) := by
  apply applyUpserts_untouched
  intro p hp
  rw [List.mem_map] at hp
  obtain ⟨x, hx, hpx⟩ := hp
  rw [← hpx]
  intro hhx
  exact hnb ((hinj hhx) ▸ hx)

/-- Once a row for the hash of `c` exists, no later batch ever calls
the embedding API for `c`. -/
theorem processBatches_no_call [DecidableEq H] (hash : List Char → H)
    (api : List Char → Option E) (docId : Nat) (c : List Char) :
    ∀ (fuel : Nat) (chunks : List (List Char)) (db : EmbDB H E) (i : Nat),
      (db (hash c)).isSome →
      c ∉ (processBatches hash api docId fuel db i chunks).2.2 := by
  intro fuel
  induction fuel with
  | zero =>
    intro chunks db i _ hmem
    cases chunks <;> simp [processBatches] at hmem
  | succ n ih =>
    intro chunks db i hsome hmem
    cases chunks with
    | nil => simp [processBatches] at hmem
    | cons x rest =>
      obtain ⟨r, hr⟩ := Option.isSome_iff_exists.mp hsome
      obtain ⟨r1, hr1, -, -, -, -⟩ := processBatchPhased_preserves hash api db docId i
        ((x :: rest).take 10) (hash c) r hr
      simp only [processBatches] at hmem
      rcases hb : processBatchPhased hash api db docId i ((x :: rest).take 10)
        with ⟨db1, oks, calls⟩
      rw [hb] at hmem hr1
      rcases hrest : processBatches hash api docId n db1 (i + 10) ((x :: rest).drop 10)
        with ⟨db2, oks2, calls2⟩
      rw [hrest] at hmem
      simp only [List.mem_append] at hmem
      rcases hmem with hmem | hmem
      · have hcall : db (hash c) = none ∧ c ∈ (x :: rest).take 10 := by
          apply processBatchPhased_call_mem hash api db docId i
          rw [hb]
          exact hmem
        rw [hcall.1] at hr
        exact Option.noConfusion hr
      · have hr1' : db1 (hash c) = some r1 := hr1
        have := ih ((x :: rest).drop 10) db1 (i + 10) (by rw [hr1']; rfl)
        rw [hrest] at this
        exact this hmem

/-- Whole-ingestion preservation: an existing row's embedding (and
content, hash, token count) survive all batches. -/
theorem processBatches_preserves [DecidableEq H] (hash : List Char → H)
    (api : List Char → Option E) (docId : Nat) :
    ∀ (fuel : Nat) (chunks : List (List Char)) (db : EmbDB H E) (i : Nat) (h : H)
      (r : EmbRow H E), db h = some r →
      ∃ r', (processBatches hash api docId fuel db i chunks).1 h = some r' ∧
        r'.embedding = r.embedding ∧ r'.content = r.content ∧
        r'.content_hash = r.content_hash ∧ r'.token_count = r.token_count := by
  intro fuel
  induction fuel with
  | zero =>
    intro chunks db i h r hr
    cases chunks <;> exact ⟨r, hr, rfl, rfl, rfl, rfl⟩
  | succ n ih =>
    intro chunks db i h r hr
    cases chunks with
    | nil => exact ⟨r, hr, rfl, rfl, rfl, rfl⟩
    | cons x rest =>
      obtain ⟨r1, hr1, he1, hc1, hh1, ht1⟩ := processBatchPhased_preserves hash api db
        docId i ((x :: rest).take 10) h r hr
      simp only [processBatches]
      rcases hb : processBatchPhased hash api db docId i ((x :: rest).take 10)
        with ⟨db1, oks, calls⟩
      rw [hb] at hr1
      obtain ⟨r2, hr2, he2, hc2, hh2, ht2⟩ := ih ((x :: rest).drop 10) db1 (i + 10) h r1 hr1
      rcases hrest : processBatches hash api docId n db1 (i + 10) ((x :: rest).drop 10)
        with ⟨db2, oks2, calls2⟩
      rw [hrest] at hr2
      exact ⟨r2, hr2, by rw [he2, he1], by rw [hc2, hc1], by rw [hh2, hh1],
        by rw [ht2, ht1]⟩

/-- Main cache lemma on the batch phase model: for a content `c` whose
embedding call succeeds and which occurs at most once in each batch,
the embedding API is called at most once for `c` along the whole run;
if `c` occurs at all, a row for its hash exists afterwards; and if no
row existed before, the stored embedding is exactly the API's value. -/
theorem processBatches_count [DecidableEq H] (hash : List Char → H)
    (hinj : Function.Injective hash) (api : List Char → Option E) (docId : Nat)
    (c : List Char) (e : E) (hc : api c = some e) :
    ∀ (fuel : Nat) (chunks : List (List Char)) (db : EmbDB H E) (i : Nat),
      chunks.length ≤ fuel →
      (∀ b ∈ batchesOf fuel chunks, b.count c ≤ 1) →
      (processBatches hash api docId fuel db i chunks).2.2.count c ≤ 1 ∧
      (c ∈ chunks → ((processBatches hash api docId fuel db i chunks).1 (hash c)).isSome) ∧
      (db (hash c) = none → c ∈ chunks →
        ∃ r, (processBatches hash api docId fuel db i chunks).1 (hash c) = some r ∧
          r.embedding = e) := by
  intro fuel
  induction fuel with
  | zero =>
    intro chunks db i hlen _
    have hnil : chunks = [] := List.length_eq_zero.mp (Nat.le_zero.mp hlen)
    subst hnil
    exact ⟨by simp [processBatches], by intro h; simp at h, by intro _ h; simp at h⟩
  | succ n ih =>
    intro chunks db i hlen hb
    cases chunks with
    | nil =>
      exact ⟨by simp [processBatches], by intro h; simp at h, by intro _ h; simp at h⟩
    | cons x rest =>
      have hlen' : ((x :: rest).drop 10).length ≤ n := by
        simp only [List.length_drop, List.length_cons] at hlen ⊢
        omega
      have hb1 : ((x :: rest).take 10).count c ≤ 1 := by
        apply hb
        simp only [batchesOf]
        exact List.mem_cons_self _ _
      have hbrest : ∀ b ∈ batchesOf n ((x :: rest).drop 10), b.count c ≤ 1 := by
        intro b hbmem
        apply hb
        simp only [batchesOf]
        exact List.mem_cons_of_mem _ hbmem
      simp only [processBatches]
      rcases hbatch : processBatchPhased hash api db docId i ((x :: rest).take 10)
        with ⟨db1, oks, calls⟩
      rcases hdb : db (hash c) with _ | cached
      · -- no row yet for `hash c`
        have hcc : calls.count c = ((x :: rest).take 10).count c := by
          have h0 := processBatchPhased_calls_of_miss hash api db docId i
            ((x :: rest).take 10) c hdb
          rw [hbatch] at h0
          exact h0
        by_cases hcb : c ∈ (x :: rest).take 10
        · -- `c` is in this batch: called at most once here, never again
          obtain ⟨r1, hr1, he1⟩ := processBatchPhased_fresh hash hinj api db docId i
            ((x :: rest).take 10) c e hdb hc hcb
          rw [hbatch] at hr1
          have hr1' : db1 (hash c) = some r1 := hr1
          have hnocall := processBatches_no_call hash api docId c n
            ((x :: rest).drop 10) db1 (i + 10) (by rw [hr1']; rfl)
          obtain ⟨r2, hr2, he2, -, -, -⟩ := processBatches_preserves hash api docId n
            ((x :: rest).drop 10) db1 (i + 10) (hash c) r1 hr1'
          rcases hrest : processBatches hash api docId n db1 (i + 10)
            ((x :: rest).drop 10) with ⟨db2, oks2, calls2⟩
          rw [hrest] at hnocall hr2
          refine ⟨?_, ?_, ?_⟩
          · rw [List.count_append, hcc, List.count_eq_zero.mpr hnocall]
            simpa using hb1
          · intro _
            rw [hr2]
            rfl
          · intro _ _
            exact ⟨r2, hr2, by rw [he2, he1]⟩
        · -- `c` is not in this batch: nothing changes at `hash c`
          have huntouched : db1 (hash c) = none := by
            have h0 := processBatchPhased_untouched hash hinj api db docId i
              ((x :: rest).take 10) c hcb
            rw [hbatch] at h0
            have h0' : db1 (hash c) = db (hash c) := h0
            rw [h0', hdb]
          have ihr := ih ((x :: rest).drop 10) db1 (i + 10) hlen' hbrest
          rcases hrest : processBatches hash api docId n db1 (i + 10)
            ((x :: rest).drop 10) with ⟨db2, oks2, calls2⟩
          rw [hrest] at ihr
          have hcrest : c ∈ x :: rest → c ∈ (x :: rest).drop 10 := by
            intro hmem
            rcases List.mem_append.mp
              (by rw [List.take_append_drop 10 (x :: rest)]; exact hmem) with h | h
            · exact absurd h hcb
            · exact h
          refine ⟨?_, ?_, ?_⟩
          · rw [List.count_append, hcc, List.count_eq_zero.mpr hcb]
            simpa using ihr.1
          · intro hmem
            exact ihr.2.1 (hcrest hmem)
          · intro _ hmem
            exact ihr.2.2 huntouched (hcrest hmem)
      · -- a row already exists: this batch and all later ones hit the cache
        have hcc : calls.count c = 0 := by
          have h0 := processBatchPhased_calls_of_hit hash api db docId i
            ((x :: rest).take 10) c cached hdb
          rw [hbatch] at h0
          exact h0
        obtain ⟨r1, hr1, -, -, -, -⟩ := processBatchPhased_preserves hash api db docId i
          ((x :: rest).take 10) (hash c) cached hdb
        rw [hbatch] at hr1
        have hr1' : db1 (hash c) = some r1 := hr1
        have hnocall := processBatches_no_call hash api docId c n
          ((x :: rest).drop 10) db1 (i + 10) (by rw [hr1']; rfl)
        obtain ⟨r2, hr2, -, -, -, -⟩ := processBatches_preserves hash api docId n
          ((x :: rest).drop 10) db1 (i + 10) (hash c) r1 hr1'
        rcases hrest : processBatches hash api docId n db1 (i + 10)
          ((x :: rest).drop 10) with ⟨db2, oks2, calls2⟩
        rw [hrest] at hnocall hr2
        refine ⟨?_, ?_, ?_⟩
        · rw [List.count_append, hcc, List.count_eq_zero.mpr hnocall]
          omega
        · intro _
          rw [hr2]
          rfl
        · intro hnone
          exact absurd hnone (fun hh => Option.noConfusion hh)

/-- Per-chunk outcomes of one run: every chunk gets a flag (the batch is
never aborted), and any chunk whose embedding resolution succeeds (or
that hits the cache) is flagged successful, regardless of other chunks
failing. -/
theorem processChunksFrom_flags [DecidableEq H] (hash : List Char → H)
    (api : List Char → Option E) (docId : Nat) :
    ∀ (chunks : List (List Char)) (db : EmbDB H E) (i : Nat),
      (processChunksFrom hash api docId db i chunks).2.1.length = chunks.length ∧
      (∀ (j : Nat) (x : List Char), chunks[j]? = some x → (api x).isSome →
        (processChunksFrom hash api docId db i chunks).2.1[j]? = some true) := by
  intro chunks
  induction chunks with
  | nil =>
    intro db i
    refine ⟨rfl, ?_⟩
    intro j x hj
    simp at hj
  | cons chunk rest ih =>
    intro db i
    simp only [processChunksFrom]
    rcases hstep : processChunk hash api db docId i chunk with ⟨db1, ok, calls⟩
    rcases hrest : processChunksFrom hash api docId db1 (i + 1) rest with ⟨db2, oks, calls2⟩
    have ihr := ih db1 (i + 1)
    rw [hrest] at ihr
    refine ⟨by simp [ihr.1], ?_⟩
    intro j x hj hx
    cases j with
    | zero =>
      simp only [List.getElem?_cons_zero, Option.some.injEq] at hj
      subst hj
      have hok : ok = true := by
        unfold processChunk at hstep
        rcases hdb : db (hash chunk) with _ | cached
        · rcases hapi : api chunk with _ | e
          · rw [hapi] at hx; simp at hx
          · rw [hdb, hapi] at hstep
            simp only [Prod.mk.injEq] at hstep
            exact hstep.2.1.symm
        · rw [hdb] at hstep
          simp only [Prod.mk.injEq] at hstep
          exact hstep.2.1.symm
      simp [hok]
    | succ k =>
      simp only [List.getElem?_cons_succ] at hj
      simp only [List.getElem?_cons_succ]
      exact ihr.2 k x hj hx

/-- A concrete embedding oracle under which the chunk "b" exhausts all
retries (`none`) while every other chunk embeds successfully. -/
def apiOneFailure : List Char → Option Nat :=
  fun s => if s = ['b'] then none else some 7

/-- An initially empty `rag.embeddings` table. -/
def embDBEmpty : EmbDB (List Char) Nat := fun _ => none

/-- C4, counterexample to the claim as stated: ingesting the two chunks
"b" and "g", where "b"'s embedding fails and "g"'s succeeds, does not
abort (both chunks get an outcome, the document update says READY), but
the recorded `chunks_count` is `chunks.length = 2` — the total number
of chunks — while only 1 chunk was successfully inserted ("b" has no
row).  So `chunks_count` does NOT reflect only the successfully
inserted chunks. -/
theorem chunks_count_counts_failed_chunks :
    (processEmbeddingsBatch (fun l => l) apiOneFailure embDBEmpty 1 [['b'], ['g']]).2.1 =
      [false, true] ∧
    (readyUpdate ['g'] [['b'], ['g']]).status = "READY" ∧
    (readyUpdate ['g'] [['b'], ['g']]).chunks_count = 2 ∧
    (processEmbeddingsBatch (fun l => l) apiOneFailure embDBEmpty 1 [['b'], ['g']]).1 ['b'] =
      none ∧
    ((processEmbeddingsBatch (fun l => l) apiOneFailure embDBEmpty 1 [['b'], ['g']]).1 ['g']).isSome =
      true ∧
    (2 : Nat) ≠ 1 := by
  refine ⟨?_, rfl, rfl, ?_, ?_, by decide⟩
  · rfl
  · rfl
  · rfl

/-- C4 (amended): When some chunks of a document fail embedding
(retries exhausted) while others succeed, the failure of an individual
chunk does not abort its batch or the document: failures are only
logged, the remaining chunks complete, the document is still marked
READY — but the recorded chunks_count is the total number of chunks
produced by the chunker (failed chunks included), not the number of
successfully inserted chunks. -/
theorem chunk_failure_tolerant_document_ready [DecidableEq H] (hash : List Char → H)
    (api : List Char → Option E) (db0 : EmbDB H E) (docId : Nat)
    (chunks : List (List Char)) (cleaned : List Char) :
    (processEmbeddingsBatch hash api db0 docId chunks).2.1.length = chunks.length ∧
    (∀ (j : Nat) (x : List Char), chunks[j]? = some x → (api x).isSome →
      (processEmbeddingsBatch hash api db0 docId chunks).2.1[j]? = some true) ∧
    (readyUpdate cleaned chunks).status = "READY" ∧
    (readyUpdate cleaned chunks).chunks_count = chunks.length := by
  refine ⟨(processChunksFrom_flags hash api docId chunks db0 0).1,
    (processChunksFrom_flags hash api docId chunks db0 0).2, rfl, rfl⟩

/-- Concrete instantiation for `chunk_failure_tolerant_document_ready`:
with "b" failing and "g" succeeding, both chunks are processed and the
successful one is flagged true. -/
theorem chunk_failure_tolerant_document_ready_witness :
    (processEmbeddingsBatch (fun l => l) apiOneFailure embDBEmpty 1 [['b'], ['g']]).2.1.length = 2 ∧
    (processEmbeddingsBatch (fun l => l) apiOneFailure embDBEmpty 1 [['b'], ['g']]).2.1[1]? =
      some true :=
  ⟨(chunk_failure_tolerant_document_ready (fun l => l) apiOneFailure embDBEmpty 1
      [['b'], ['g']] ['g']).1,
   (chunk_failure_tolerant_document_ready (fun l => l) apiOneFailure embDBEmpty 1
      [['b'], ['g']] ['g']).2.1 1 ['g'] rfl (by decide)⟩

/-! ## Ingestion handler (ingest.ts lines 480–659, `doc_id`-referenced path)

The handler resolves the document record by `doc_id`, marks it
PROCESSING, fetches the blob and extracts text (collaborators, modelled
by the `rawText` argument: `none` = blob missing), cleans it, rejects
empty cleaned text, chunks it, processes embeddings and marks the
document READY.  Any thrown error is caught; the catch block makes a
best-effort attempt to set the document status to ERROR (skipped when
its own fresh DB connection fails — parameter `markErrorDbFails` —
in which case the failure is only logged) and returns a
`{success: false, error}` payload either way.  The chunker is passed as
a parameter here; the source's `chunkText` itself is modelled and
analysed separately above. -/

structure DocRec where
  id : Nat
  title : String
  doc_id : String
  status : String
  content : Option (List Char)
  chunks_count : Option Nat
  total_tokens : Option Int

structure IngestState (H E : Type) where
  docs : List DocRec
  embs : EmbDB H E

/-- `SELECT id, title, metadata FROM rag.documents WHERE
metadata->>'doc_id' = $1` (first matching row). -/
def findDoc (docs : List DocRec) (docId : String) : Option DocRec :=
  docs.find? (fun d => d.doc_id == docId)

/-- `UPDATE rag.documents SET metadata = {...status} WHERE id = $2`. -/
def setDocStatus (docs : List DocRec) (internalId : Nat) (st : String) : List DocRec :=
  docs.map (fun d => if d.id = internalId then { d with status := st } else d)

/-- The READY update: preview, status, chunk count, token total. -/
def setDocReady (docs : List DocRec) (internalId : Nat) (upd : DocUpdate) : List DocRec :=
  docs.map (fun d => if d.id = internalId then
    { d with
      status := upd.status
      content := some upd.content_preview
      chunks_count := some upd.chunks_count
      total_tokens := some upd.total_tokens } else d)

/-- The catch-path update: `SET metadata = jsonb_set(metadata,
'{status}', '"ERROR"') WHERE metadata->>'doc_id' = $1`. -/
def markDocError (docs : List DocRec) (docId : String) : List DocRec :=
  docs.map (fun d => if d.doc_id = docId then { d with status := "ERROR" } else d)

structure IngestResponse where
  success : Bool
  error : Option String
  chunks_processed : Option Nat
  status : Option String

/-- The primary pipeline (the `try` block of the handler): returns the
state as left behind by the performed SQL statements together with the
outcome (`.ok chunksProcessed` or the thrown error message). -/
def ingestRun [DecidableEq H] (hash : List Char → H) (api : List Char → Option E)
    (chunker : List Char → List (List Char)) (st : IngestState H E)
    (docId : String) (rawText : Option (List Char)) :
    IngestState H E × Except String Nat :=
  match findDoc st.docs docId with
  | none => (st, .error ("Document not found: " ++ docId))
  | some doc =>
    let docs1 := setDocStatus st.docs doc.id "PROCESSING"
    match rawText with
    | none => (⟨docs1, st.embs⟩, .error "File not found in blob storage")
    | some raw =>
      if jsTrim (cleanTextL raw) = [] then
        (⟨docs1, st.embs⟩, .error "No text content extracted from document")
      else
        match processEmbeddingsBatch hash api st.embs doc.id (chunker (cleanTextL raw)) with
        | (embs2, _, _) =>
          (⟨setDocReady docs1 doc.id (readyUpdate (cleanTextL raw) (chunker (cleanTextL raw))),
            embs2⟩, .ok (chunker (cleanTextL raw)).length)

/-- The full handler: the primary pipeline plus the catch block. -/
def ingestHandler [DecidableEq H] (hash : List Char → H) (api : List Char → Option E)
    (chunker : List Char → List (List Char)) (st : IngestState H E)
    (docId : String) (rawText : Option (List Char)) (markErrorDbFails : Bool) :
    IngestState H E × IngestResponse :=
  match ingestRun hash api chunker st docId rawText with
  | (st', .ok n) =>
    (st', ⟨true, none, some n, some "READY"⟩)
  | (st', .error msg) =>
    (if markErrorDbFails then st' else ⟨markDocError st'.docs docId, st'.embs⟩,
     ⟨false, some msg, none, none⟩)

/-- C9: If the cleaned text of a document is empty after trimming,
ingestion fails with an EmptyContentError-class failure response
(success: false, no chunks persisted) and the document's status becomes
ERROR via the best-effort error-marking path, whose own failure is only
logged and never re-raised. -/
theorem empty_content_fails_and_marks_error [DecidableEq H] (hash : List Char → H)
    (api : List Char → Option E) (chunker : List Char → List (List Char))
    (st : IngestState H E) (docId : String) (doc : DocRec)
    (hfind : findDoc st.docs docId = some doc)
    (raw : List Char) (hempty : jsTrim (cleanTextL raw) = [])
    (markErrorDbFails : Bool) :
    (ingestHandler hash api chunker st docId (some raw) markErrorDbFails).2.success = false ∧
    (ingestHandler hash api chunker st docId (some raw) markErrorDbFails).2.error =
      some "No text content extracted from document" ∧
    (ingestHandler hash api chunker st docId (some raw) markErrorDbFails).1.embs = st.embs ∧
    (markErrorDbFails = false →
      ∀ d ∈ (ingestHandler hash api chunker st docId (some raw) markErrorDbFails).1.docs,
        d.doc_id = docId → d.status = "ERROR") ∧
    (markErrorDbFails = true →
      (ingestHandler hash api chunker st docId (some raw) markErrorDbFails).2.success = false) := by
  have hrun : ingestRun hash api chunker st docId (some raw) =
      (⟨setDocStatus st.docs doc.id "PROCESSING", st.embs⟩,
        .error "No text content extracted from document") := by
    unfold ingestRun
    rw [hfind]
    simp [hempty]
  unfold ingestHandler
  rw [hrun]
  refine ⟨?_, ?_, ?_, ?_, ?_⟩
  · cases markErrorDbFails <;> rfl
  · cases markErrorDbFails <;> rfl
  · cases markErrorDbFails <;> rfl
  · intro hmf d hd hdoc
    rw [hmf] at hd
    simp only [if_false, Bool.false_eq_true] at hd
    simp only [markDocError, List.mem_map] at hd
    obtain ⟨d0, hd0, hmap⟩ := hd
    by_cases hcase : d0.doc_id = docId
    · rw [if_pos hcase] at hmap
      rw [← hmap]
    · rw [if_neg hcase] at hmap
      rw [← hmap] at hdoc
      exact absurd hdoc hcase
  · intro hmf
    cases markErrorDbFails <;> rfl

/-- A one-document store for the concrete ingestion scenario. -/
def ingestStW : IngestState Nat Nat :=
  ⟨[⟨1, "Title", "D", "UPLOADED", none, none, none⟩], fun _ => none⟩

/-- Concrete instantiation for `empty_content_fails_and_marks_error`:
ingesting document "D" whose blob extracts to the empty text. -/
theorem empty_content_fails_and_marks_error_witness :
    (ingestHandler (fun _ => (0 : Nat)) (fun _ => (none : Option Nat)) (fun _ => [])
        ingestStW "D" (some []) false).2.success = false ∧
    (ingestHandler (fun _ => (0 : Nat)) (fun _ => (none : Option Nat)) (fun _ => [])
        ingestStW "D" (some []) false).2.error =
      some "No text content extracted from document" ∧
    (ingestHandler (fun _ => (0 : Nat)) (fun _ => (none : Option Nat)) (fun _ => [])
        ingestStW "D" (some []) false).1.embs = ingestStW.embs :=
  ⟨(empty_content_fails_and_marks_error (fun _ => 0) (fun _ => none) (fun _ => []) ingestStW
      "D" ⟨1, "Title", "D", "UPLOADED", none, none, none⟩ rfl [] rfl false).1,
   (empty_content_fails_and_marks_error (fun _ => 0) (fun _ => none) (fun _ => []) ingestStW
      "D" ⟨1, "Title", "D", "UPLOADED", none, none, none⟩ rfl [] rfl false).2.1,
   (empty_content_fails_and_marks_error (fun _ => 0) (fun _ => none) (fun _ => []) ingestStW
      "D" ⟨1, "Title", "D", "UPLOADED", none, none, none⟩ rfl [] rfl false).2.2.1⟩

/-! ## Query input validation (rag-query handler with Zod schema)

```ts
const QueryInputSchema = z.object({
  prompt: z.string().min(1, 'Prompt cannot be empty').max(2000, 'Prompt too long'),
  doc_id: z.string().optional(),
  top_k: z.number().int().min(1).max(20).optional().default(5)
});
```
The handler first checks the rate limit (modelled by the `rateAllowed`
flag; the limiter itself is an external collaborator), then validates
the request body with `validateRequestBody`, returning a 400
VALIDATION_ERROR response before creating the query embedding or
searching; only a validated input reaches those stages. -/

structure RawQueryBody where
  prompt : Option String
  doc_id : Option String
  top_k : Option Int

structure QueryInput where
  prompt : String
  doc_id : Option String
  top_k : Int

structure ApiError where
  error : String
  code : String

/-- `QueryInputSchema.safeParse` on a parsed JSON body. -/
def queryInputSchemaParse (r : RawQueryBody) : Except ApiError QueryInput :=
  match r.prompt with
  | none => .error ⟨"Validation failed", "VALIDATION_ERROR"⟩
  | some p =>
    if p.length < 1 then .error ⟨"Validation failed", "VALIDATION_ERROR"⟩
    else if 2000 < p.length then .error ⟨"Validation failed", "VALIDATION_ERROR"⟩
    else
      match r.top_k with
      | none => .ok ⟨p, r.doc_id, 5⟩
      | some k =>
        if k < 1 ∨ 20 < k then .error ⟨"Validation failed", "VALIDATION_ERROR"⟩
        else .ok ⟨p, r.doc_id, k⟩

/-- `validateRequestBody(event.body, QueryInputSchema)`
(shared/utils.ts): missing body → MISSING_REQUIRED_FIELD, otherwise the
schema decides. -/
def validateRequestBody (body : Option RawQueryBody) : Except ApiError QueryInput :=
  match body with
  | none => .error ⟨"Request body is required", "MISSING_REQUIRED_FIELD"⟩
  | some r => queryInputSchemaParse r

/-- Observable trace of the validation-relevant prefix of the query
handler: status code and error code of an early rejection, whether the
embedding/search stages were reached, and the validated `top_k`. -/
structure QueryHandlerTrace where
  statusCode : Nat
  errorCode : Option String
  embeddingCalled : Bool
  searchCalled : Bool
  usedTopK : Option Int

def ragQueryHandlerTrace : Bool → Option RawQueryBody → QueryHandlerTrace
  | false, _ => ⟨429, some "RATE_LIMITED", false, false, none⟩
  | true, body =>
    match validateRequestBody body with
    | .error e => ⟨400, some e.code, false, false, none⟩
    | .ok q => ⟨200, none, true, true, some q.top_k⟩

/-- C6: For every query request whose top_k is 0 or greater than 20,
the query handler rejects the request as a ValidationError (it does not
reach embedding or search); top_k defaults to 5 when absent. -/
theorem topk_out_of_range_rejected (p : String) (d : Option String) (k : Int)
    (hk : k = 0 ∨ 20 < k) :
    (ragQueryHandlerTrace true (some ⟨some p, d, some k⟩)).statusCode = 400 ∧
    (ragQueryHandlerTrace true (some ⟨some p, d, some k⟩)).errorCode =
      some "VALIDATION_ERROR" ∧
    (ragQueryHandlerTrace true (some ⟨some p, d, some k⟩)).embeddingCalled = false ∧
    (ragQueryHandlerTrace true (some ⟨some p, d, some k⟩)).searchCalled = false ∧
    (∀ q, queryInputSchemaParse ⟨some p, d, none⟩ = .ok q → q.top_k = 5) := by
  have hparse : queryInputSchemaParse ⟨some p, d, some k⟩ =
      .error ⟨"Validation failed", "VALIDATION_ERROR"⟩ := by
    dsimp only [queryInputSchemaParse]
    by_cases h1 : p.length < 1
    · rw [if_pos h1]
    · rw [if_neg h1]
      by_cases h2 : 2000 < p.length
      · rw [if_pos h2]
      · rw [if_neg h2]
        rw [if_pos (by omega)]
  have htrace : ragQueryHandlerTrace true (some ⟨some p, d, some k⟩) =
      ⟨400, some "VALIDATION_ERROR", false, false, none⟩ := by
    dsimp only [ragQueryHandlerTrace, validateRequestBody]
    rw [hparse]
  refine ⟨by rw [htrace], by rw [htrace], by rw [htrace], by rw [htrace], ?_⟩
  intro q hq
  dsimp only [queryInputSchemaParse] at hq
  by_cases h1 : p.length < 1
  · rw [if_pos h1] at hq
    exact Except.noConfusion hq
  · rw [if_neg h1] at hq
    by_cases h2 : 2000 < p.length
    · rw [if_pos h2] at hq
      exact Except.noConfusion hq
    · rw [if_neg h2] at hq
      simp only [Except.ok.injEq] at hq
      rw [← hq]

/-- Concrete instantiation for `topk_out_of_range_rejected`: the
request `{prompt: "hi", top_k: 0}` is rejected before search. -/
theorem topk_out_of_range_rejected_witness :
    (ragQueryHandlerTrace true (some ⟨some "hi", none, some 0⟩)).statusCode = 400 ∧
    (ragQueryHandlerTrace true (some ⟨some "hi", none, some 0⟩)).searchCalled = false :=
  ⟨(topk_out_of_range_rejected "hi" none 0 (Or.inl rfl)).1,
   (topk_out_of_range_rejected "hi" none 0 (Or.inl rfl)).2.2.2.1⟩

/-! ## Vector search (`vectorSearch`, rag-query)

```sql
SELECT e.id, e.content, e.chunk_index, d.title as document_title,
       1 - (e.embedding <=> $1) as similarity
FROM rag.embeddings e
JOIN rag.documents d ON e.document_id = d.id
[WHERE d.metadata->>'doc_id' = $2]
ORDER BY e.embedding <=> $1
LIMIT $topK
```

The store's ranked nearest-neighbour primitive (pgvector's `<=>`
cosine-distance operator, an external collaborator per the interface
boundary) is modelled by the `dist` parameter; ORDER BY ascending
distance / LIMIT / the join and filter are standard SQL semantics. -/

structure EmbSearchRow (E : Type) where
  id : Nat
  document_id : Nat
  chunk_index : Nat
  content : String
  embedding : E

structure DocSearchRow where
  id : Nat
  title : String
  doc_id : String

structure ChunkResult where
  id : Nat
  content : String
  chunk_index : Nat
  similarity : ℚ
  document_title : String

/-- `JOIN rag.documents d ON e.document_id = d.id`. -/
def joinEmbDocs (embs : List (EmbSearchRow E)) (docs : List DocSearchRow) :
    List (EmbSearchRow E × DocSearchRow) :=
  embs.flatMap (fun e => (docs.filter (fun d => e.document_id == d.id)).map (fun d => (e, d)))

/-- The optional `WHERE d.metadata->>'doc_id' = $2` clause. -/
def filterByDocId (docId : Option String) (l : List (EmbSearchRow E × DocSearchRow)) :
    List (EmbSearchRow E × DocSearchRow) :=
  match docId with
  | some d0 => l.filter (fun p => p.2.doc_id == d0)
  | none => l

/-- The rows produced by the SQL query before projection: join, optional
document filter, `ORDER BY e.embedding <=> $1` (ascending distance),
`LIMIT topK`. -/
def vectorSearchRows (dist : E → E → ℚ) (embs : List (EmbSearchRow E))
    (docs : List DocSearchRow) (queryEmb : E) (docId : Option String) (topK : Nat) :
    List (EmbSearchRow E × DocSearchRow) :=
  ((filterByDocId docId (joinEmbDocs embs docs)).mergeSort
    (fun a b => decide (dist queryEmb a.1.embedding ≤ dist queryEmb b.1.embedding))).take topK

/-- `vectorSearch(client, queryEmbedding, docId, topK)`: each returned
row is mapped to a ChunkResult with `similarity = 1 - distance` and the
parent document's title. -/
def vectorSearch (dist : E → E → ℚ) (embs : List (EmbSearchRow E))
    (docs : List DocSearchRow) (queryEmb : E) (docId : Option String) (topK : Nat) :
    List ChunkResult :=
  (vectorSearchRows dist embs docs queryEmb docId topK).map
    (fun p => ⟨p.1.id, p.1.content, p.1.chunk_index,
      1 - dist queryEmb p.1.embedding, p.2.title⟩)

/-- C7: For every query with a document filter doc_id = D, every chunk
returned by vectorSearch belongs to document D; in every case the
returned list is sorted by descending similarity (1 minus cosine
distance to the query vector) and contains at most top_k chunks, each
annotated with its parent document's title. -/
theorem vectorSearch_ranked_filtered (dist : E → E → ℚ) (embs : List (EmbSearchRow E))
    (docs : List DocSearchRow) (q : E) (docId : Option String) (topK : Nat) :
    (vectorSearch dist embs docs q docId topK).length ≤ topK ∧
    (vectorSearch dist embs docs q docId topK).Pairwise
      (fun a b => b.similarity ≤ a.similarity) ∧
    (∀ r ∈ vectorSearch dist embs docs q docId topK,
      ∃ e d, e ∈ embs ∧ d ∈ docs ∧ e.document_id = d.id ∧
        r.document_title = d.title ∧ r.similarity = 1 - dist q e.embedding ∧
        r.id = e.id ∧ r.chunk_index = e.chunk_index ∧ r.content = e.content ∧
        (∀ D, docId = some D → d.doc_id = D)) := by
  refine ⟨?_, ?_, ?_⟩
  · rw [vectorSearch, List.length_map, vectorSearchRows, List.length_take]
    exact min_le_left _ _
  · have hsorted := @List.sorted_mergeSort (EmbSearchRow E × DocSearchRow)
      (fun a b => decide (dist q a.1.embedding ≤ dist q b.1.embedding))
      (by intro a b c hab hbc; simp at hab hbc ⊢; exact le_trans hab hbc)
      (by intro a b; simpa using le_total _ _)
      (filterByDocId docId (joinEmbDocs embs docs))
    have htake : (vectorSearchRows dist embs docs q docId topK).Pairwise
        (fun a b => decide (dist q a.1.embedding ≤ dist q b.1.embedding) = true) :=
      List.Pairwise.sublist (by rw [vectorSearchRows]; exact List.take_sublist _ _) hsorted
    rw [vectorSearch]
    refine List.Pairwise.map _ ?_ htake
    intro a b hab
    simp only [decide_eq_true_eq] at hab
    simp only []
    linarith
  · intro r hr
    rw [vectorSearch, List.mem_map] at hr
    obtain ⟨p, hp, hmap⟩ := hr
    rw [vectorSearchRows] at hp
    have hpsort := List.mem_of_mem_take hp
    have hperm := List.mergeSort_perm (filterByDocId docId (joinEmbDocs embs docs))
      (fun a b => decide (dist q a.1.embedding ≤ dist q b.1.embedding))
    have hpfil : p ∈ filterByDocId docId (joinEmbDocs embs docs) :=
      hperm.mem_iff.mp hpsort
    have hjoin : p ∈ joinEmbDocs embs docs ∧ (∀ D, docId = some D → p.2.doc_id = D) := by
      cases hdoc : docId with
      | none =>
        rw [hdoc] at hpfil
        exact ⟨hpfil, fun D hD => Option.noConfusion hD⟩
      | some d0 =>
        rw [hdoc] at hpfil
        rw [filterByDocId, List.mem_filter] at hpfil
        refine ⟨hpfil.1, ?_⟩
        intro D hD
        have hd0 : d0 = D := Option.some.inj hD
        subst hd0
        exact eq_of_beq hpfil.2
    obtain ⟨hjm, hfil⟩ := hjoin
    rw [joinEmbDocs, List.mem_flatMap] at hjm
    obtain ⟨e, he, hpe⟩ := hjm
    rw [List.mem_map] at hpe
    obtain ⟨d, hd, hpd⟩ := hpe
    rw [List.mem_filter] at hd
    refine ⟨e, d, he, hd.1, eq_of_beq hd.2, ?_, ?_, ?_, ?_, ?_, ?_⟩
    · rw [← hmap, ← hpd]
    · rw [← hmap, ← hpd]
    · rw [← hmap, ← hpd]
    · rw [← hmap, ← hpd]
    · rw [← hmap, ← hpd]
    · rw [← hpd] at hfil
      exact hfil

/-- Concrete instantiation for `vectorSearch_ranked_filtered`: one chunk
of document "D", queried with a filter on "D". -/
theorem vectorSearch_ranked_filtered_witness :
    (vectorSearch (fun x y : ℚ => |x - y|) [⟨1, 10, 0, "c1", 0⟩] [⟨10, "T", "D"⟩]
        0 (some "D") 5).length ≤ 5 ∧
    (vectorSearch (fun x y : ℚ => |x - y|) [⟨1, 10, 0, "c1", 0⟩] [⟨10, "T", "D"⟩]
        0 (some "D") 5).Pairwise (fun a b => b.similarity ≤ a.similarity) :=
  ⟨(vectorSearch_ranked_filtered (fun x y : ℚ => |x - y|) [⟨1, 10, 0, "c1", 0⟩]
      [⟨10, "T", "D"⟩] 0 (some "D") 5).1,
   (vectorSearch_ranked_filtered (fun x y : ℚ => |x - y|) [⟨1, 10, 0, "c1", 0⟩]
      [⟨10, "T", "D"⟩] 0 (some "D") 5).2.1⟩

/-! ## Streaming answer generation (`streamChatCompletion`, rag-query)

The function builds the SSE body: a metadata event, a chunks event
(contents truncated to 200 characters plus an ellipsis), one token
event per non-empty delta, and an end event; the whole construction is
wrapped in a try/catch whose catch returns a body consisting of a
single error event (discarding anything built so far).  The completions
call is modelled by `create`: `.error msg` = the call itself threw;
`.ok (deltas, none)` = the stream yielded the given delta contents and
completed; `.ok (deltas, some msg)` = the iteration threw after the
given deltas. -/

inductive SSEEvent where
  | metadata (requestId : String) (latencyMs : Nat)
  | chunksEvent (chunks : List ChunkResult)
  | token (content : String)
  | endEvent
  | errorEvent (msg : String)

def isTerminal : SSEEvent → Bool
  | .endEvent => true
  | .errorEvent _ => true
  | _ => false

/-- `chunk.content.substring(0, 200) + '...'`. -/
def truncateForDisplay (c : ChunkResult) : ChunkResult :=
  { c with content := String.mk (c.content.data.take 200 ++ "...".data) }

/-- `if (content)` — empty or absent delta contents are skipped. -/
def tokenEvents (deltas : List (Option String)) : List SSEEvent :=
  deltas.filterMap (fun d => match d with
    | some s => if s = "" then none else some (SSEEvent.token s)
    | none => none)

def streamChatCompletion (create : Except String (List (Option String) × Option String))
    (chunks : List ChunkResult) (requestId : String) (latencyMs : Nat) : List SSEEvent :=
  match create with
  | .error msg => [.errorEvent msg]
  | .ok (_, some msg) => [.errorEvent msg]
  | .ok (deltas, none) =>
    .metadata requestId latencyMs ::
    .chunksEvent (chunks.map truncateForDisplay) ::
    (tokenEvents deltas ++ [.endEvent])

/-- Token events are never terminal. -/
theorem tokenEvents_not_terminal (deltas : List (Option String)) :
    ∀ ev ∈ tokenEvents deltas, isTerminal ev = false := by
  intro ev hev
  rw [tokenEvents, List.mem_filterMap] at hev
  obtain ⟨d, -, hd⟩ := hev
  rcases d with _ | s
  · exact Option.noConfusion hd
  · have hd' : (if s = "" then none else some (SSEEvent.token s)) = some ev := hd
    by_cases hs : s = ""
    · rw [if_pos hs] at hd'
      exact Option.noConfusion hd'
    · rw [if_neg hs] at hd'
      rw [← Option.some.inj hd']
      rfl

/-- C8: Every event stream produced by streamChatCompletion ends with
exactly one terminal event: the sequence metadata, chunks, zero or more
token events is terminated by one end event on success, and any
mid-stream failure yields a stream terminated by one error event
instead — never both end and error, and never neither. -/
theorem stream_exactly_one_terminal
    (create : Except String (List (Option String) × Option String))
    (chunks : List ChunkResult) (rid : String) (lat : Nat) :
    (streamChatCompletion create chunks rid lat).countP (fun ev => isTerminal ev) = 1 ∧
    (∃ t, (streamChatCompletion create chunks rid lat).getLast? = some t ∧
      isTerminal t = true) ∧
    ¬(SSEEvent.endEvent ∈ streamChatCompletion create chunks rid lat ∧
      ∃ m, SSEEvent.errorEvent m ∈ streamChatCompletion create chunks rid lat) ∧
    (∀ deltas, create = .ok (deltas, none) →
      streamChatCompletion create chunks rid lat =
        SSEEvent.metadata rid lat ::
        SSEEvent.chunksEvent (chunks.map truncateForDisplay) ::
        (tokenEvents deltas ++ [SSEEvent.endEvent])) := by
  rcases create with msg | ⟨deltas, err⟩
  · refine ⟨rfl, ⟨.errorEvent msg, rfl, rfl⟩, ?_, ?_⟩
    · rintro ⟨hend, -⟩
      simp only [streamChatCompletion, List.mem_singleton] at hend
      exact SSEEvent.noConfusion hend
    · intro deltas h
      exact Except.noConfusion h
  · rcases err with _ | msg
    · -- successful stream
      have hz : (tokenEvents deltas).countP (fun ev => isTerminal ev) = 0 :=
        List.countP_eq_zero.mpr (by
          intro ev hev
          rw [tokenEvents_not_terminal deltas ev hev]
          exact fun hh => Bool.noConfusion hh)
      refine ⟨?_, ?_, ?_, ?_⟩
      · simp only [streamChatCompletion, List.countP_cons, List.countP_append, hz]
        rfl
      · refine ⟨.endEvent, ?_, rfl⟩
        show (SSEEvent.metadata rid lat ::
          SSEEvent.chunksEvent (chunks.map truncateForDisplay) ::
          (tokenEvents deltas ++ [SSEEvent.endEvent])).getLast? = some SSEEvent.endEvent
        rw [show SSEEvent.metadata rid lat ::
            SSEEvent.chunksEvent (chunks.map truncateForDisplay) ::
            (tokenEvents deltas ++ [SSEEvent.endEvent]) =
          (SSEEvent.metadata rid lat ::
            SSEEvent.chunksEvent (chunks.map truncateForDisplay) ::
            tokenEvents deltas) ++ [SSEEvent.endEvent] by simp]
        exact List.getLast?_concat _
      · rintro ⟨-, m, herr⟩
        simp only [streamChatCompletion, List.mem_cons, List.mem_append,
          List.mem_singleton] at herr
        rcases herr with h | h | h | h
        · exact SSEEvent.noConfusion h
        · exact SSEEvent.noConfusion h
        · have := tokenEvents_not_terminal deltas _ h
          rw [show isTerminal (SSEEvent.errorEvent m) = true from rfl] at this
          exact Bool.false_ne_true this.symm
        · rcases h with h | h
          · exact SSEEvent.noConfusion h
          · simp at h
      · intro deltas' h
        have hd : deltas' = deltas := by
          have := Except.ok.inj h
          exact (Prod.mk.injEq _ _ _ _ ▸ this).1.symm
        rw [hd]
        rfl
    · -- iteration threw: the catch returns only the error event
      refine ⟨rfl, ⟨.errorEvent msg, rfl, rfl⟩, ?_, ?_⟩
      · rintro ⟨hend, -⟩
        simp only [streamChatCompletion, List.mem_singleton] at hend
        exact SSEEvent.noConfusion hend
      · intro deltas' h
        have := Except.ok.inj h
        have h2 := (Prod.mk.injEq _ _ _ _ ▸ this).2
        exact Option.noConfusion h2

/-- Concrete instantiation for `stream_exactly_one_terminal`: a stream
that yields "Hello", an empty delta and an absent delta, then completes:
exactly one terminal event, and the success shape ends with the end
event. -/
theorem stream_exactly_one_terminal_witness :
    (streamChatCompletion (.ok ([some "Hello", none, some ""], none)) [] "r" 3).countP
      (fun ev => isTerminal ev) = 1 ∧
    streamChatCompletion (.ok ([some "Hello", none, some ""], none)) [] "r" 3 =
      SSEEvent.metadata "r" 3 :: SSEEvent.chunksEvent (List.map truncateForDisplay []) ::
      (tokenEvents [some "Hello", none, some ""] ++ [SSEEvent.endEvent]) :=
  ⟨(stream_exactly_one_terminal (.ok ([some "Hello", none, some ""], none)) [] "r" 3).1,
   (stream_exactly_one_terminal (.ok ([some "Hello", none, some ""], none)) [] "r" 3).2.2.2
     [some "Hello", none, some ""] rfl⟩

/-- C2, counterexample to the claim as stated: the content "a" appears
twice in the first batch of the first ingestion.  All of that batch's
cache lookups execute before any of its inserts, so both occurrences
miss the cache and the embedding API is invoked twice for that content
across the two ingestions — refuting "the embedding API is invoked at
most once for that content across both ingestions". -/
theorem embedding_api_called_twice_in_one_batch :
    ((processEmbeddingsBatchPhased (fun l => l) (fun _ => some (3 : Nat))
        embDBEmpty 1 [['a'], ['a']]).2.2 ++
      (processEmbeddingsBatchPhased (fun l => l) (fun _ => some (3 : Nat))
        (processEmbeddingsBatchPhased (fun l => l) (fun _ => some (3 : Nat))
          embDBEmpty 1 [['a'], ['a']]).1 2 [['a']]).2.2).count ['a'] = 2 ∧
    ¬(((processEmbeddingsBatchPhased (fun l => l) (fun _ => some (3 : Nat))
        embDBEmpty 1 [['a'], ['a']]).2.2 ++
      (processEmbeddingsBatchPhased (fun l => l) (fun _ => some (3 : Nat))
        (processEmbeddingsBatchPhased (fun l => l) (fun _ => some (3 : Nat))
          embDBEmpty 1 [['a'], ['a']]).1 2 [['a']]).2.2).count ['a'] ≤ 1) := by
  refine ⟨?_, ?_⟩ <;> decide

/-- C2 (amended): For every two chunks with byte-identical content,
possibly ingested into different documents, the persisted embedding
value is identical (the single content-hash-keyed row's embedding is
never rewritten, and equals the API's value when no row pre-existed),
and the embedding API is invoked at most once for that content across
both ingestions provided the content does not occur more than once
within a single concurrent batch of 10 chunks: a batch's cache lookups
all execute before any of its inserts, so same-batch duplicates each
miss the cache and each trigger their own embedding call, while any
later occurrence (a later batch, or the other ingestion) hits the
content-hash cache and reuses the stored embedding. -/
theorem embedding_cache_dedup_batched [DecidableEq H] (hash : List Char → H)
    (hinj : Function.Injective hash) (api : List Char → Option E)
    (c : List Char) (e : E) (hc : api c = some e)
    (chunks1 chunks2 : List (List Char)) (h1 : c ∈ chunks1) (h2 : c ∈ chunks2)
    (hb1 : ∀ b ∈ chunkBatches chunks1, b.count c ≤ 1)
    (hb2 : ∀ b ∈ chunkBatches chunks2, b.count c ≤ 1)
    (doc1 doc2 : Nat) (db0 : EmbDB H E) :
    ((processEmbeddingsBatchPhased hash api db0 doc1 chunks1).2.2 ++
        (processEmbeddingsBatchPhased hash api
          (processEmbeddingsBatchPhased hash api db0 doc1 chunks1).1
          doc2 chunks2).2.2).count c ≤ 1 ∧
    (∃ r1 r2, (processEmbeddingsBatchPhased hash api db0 doc1 chunks1).1 (hash c) = some r1 ∧
      (processEmbeddingsBatchPhased hash api
        (processEmbeddingsBatchPhased hash api db0 doc1 chunks1).1
        doc2 chunks2).1 (hash c) = some r2 ∧
      r2.embedding = r1.embedding) ∧
    (db0 (hash c) = none →
      ∀ r2, (processEmbeddingsBatchPhased hash api
          (processEmbeddingsBatchPhased hash api db0 doc1 chunks1).1
          doc2 chunks2).1 (hash c) = some r2 →
        r2.embedding = e) := by
  have hrun1 := processBatches_count hash hinj api doc1 c e hc chunks1.length chunks1 db0 0
    le_rfl hb1
  have hsome1 : ((processEmbeddingsBatchPhased hash api db0 doc1 chunks1).1 (hash c)).isSome :=
    hrun1.2.1 h1
  obtain ⟨r1, hr1⟩ := Option.isSome_iff_exists.mp hsome1
  obtain ⟨r2, hr2, he2, -, -, -⟩ := processBatches_preserves hash api doc2 chunks2.length
    chunks2 (processEmbeddingsBatchPhased hash api db0 doc1 chunks1).1 0 (hash c) r1 hr1
  have hnocall2 : c ∉ (processEmbeddingsBatchPhased hash api
      (processEmbeddingsBatchPhased hash api db0 doc1 chunks1).1 doc2 chunks2).2.2 :=
    processBatches_no_call hash api doc2 c chunks2.length chunks2
      (processEmbeddingsBatchPhased hash api db0 doc1 chunks1).1 0 hsome1
  have hr2' : (processEmbeddingsBatchPhased hash api
      (processEmbeddingsBatchPhased hash api db0 doc1 chunks1).1 doc2 chunks2).1 (hash c) =
      some r2 := hr2
  refine ⟨?_, ⟨r1, r2, hr1, hr2', he2⟩, ?_⟩
  · rw [List.count_append, List.count_eq_zero.mpr hnocall2]
    simpa using hrun1.1
  · intro hnone r2'' hr2''
    obtain ⟨r1', hr1', he1'⟩ := hrun1.2.2 hnone h1
    have hr1'' : (processEmbeddingsBatchPhased hash api db0 doc1 chunks1).1 (hash c) =
        some r1' := hr1'
    rw [hr1] at hr1''
    have h11 : r1' = r1 := (Option.some.inj hr1'').symm
    rw [hr2'] at hr2''
    have h22 : r2'' = r2 := (Option.some.inj hr2'').symm
    rw [h22, he2, ← h11, he1']

/-- Concrete instantiation for `embedding_cache_dedup_batched`: "a"
ingested once per document (so once per batch), hashes being the texts
themselves. -/
theorem embedding_cache_dedup_batched_witness :
    ((processEmbeddingsBatchPhased (fun l => l) (fun _ => some (3 : Nat))
        (fun _ => none) 1 [['a']]).2.2 ++
        (processEmbeddingsBatchPhased (fun l => l) (fun _ => some (3 : Nat))
          (processEmbeddingsBatchPhased (fun l => l) (fun _ => some (3 : Nat))
            (fun _ => none) 1 [['a']]).1 2 [['a']]).2.2).count ['a'] ≤ 1 ∧
    (∃ r1 r2, (processEmbeddingsBatchPhased (fun l => l) (fun _ => some (3 : Nat))
        (fun _ => none) 1 [['a']]).1 ['a'] = some r1 ∧
      (processEmbeddingsBatchPhased (fun l => l) (fun _ => some (3 : Nat))
        (processEmbeddingsBatchPhased (fun l => l) (fun _ => some (3 : Nat))
          (fun _ => none) 1 [['a']]).1 2 [['a']]).1 ['a'] = some r2 ∧
      r2.embedding = r1.embedding) ∧
    ((fun _ => none : EmbDB (List Char) Nat) ['a'] = none →
      ∀ r2, (processEmbeddingsBatchPhased (fun l => l) (fun _ => some (3 : Nat))
          (processEmbeddingsBatchPhased (fun l => l) (fun _ => some (3 : Nat))
            (fun _ => none) 1 [['a']]).1 2 [['a']]).1 ['a'] = some r2 →
        r2.embedding = 3) :=
  embedding_cache_dedup_batched (fun l => l) (fun _ _ h => h) (fun _ => some 3)
    ['a'] 3 rfl [['a']] [['a']] (List.mem_singleton.mpr rfl) (List.mem_singleton.mpr rfl)
    (by decide) (by decide) 1 2 (fun _ => none)
